import Mathlib

/-!
Formal model of the `vectorizer.py` synchronization pipeline.

The Python program keeps a SurrealDB table of document records (filename,
content, embedding, SHA-256 content hash) in sync with a directory of
markdown files: it loads the existing records once, classifies every scanned
file as new / updated / unchanged by comparing content hashes, requests an
embedding and upserts a record for new and updated files, deletes records
whose filenames were not scanned, and exits non-zero when any file had to be
truncated to the maximum content length.

The definitions below are a shallow embedding of that program: the SurrealDB
table is an association list keyed by record id, the OpenAI embedding client
is a parameter `embed : String → E`, file system scanning is an input list of
`(relative path, raw content)` pairs, and the observable behaviour of a run
(classifications, embedding requests, upserts, deletes, printed lines, exit
code) is collected in a `RunResult`.  SHA-256 itself is implemented
bit-faithfully over the UTF-8 bytes of the input, mirroring
`hashlib.sha256(s.encode()).hexdigest()`.
-/

set_option maxRecDepth 4000

namespace Vectorizer

/-! ### SHA-256 over byte lists, producing a lowercase hex digest -/

/-- Reduce modulo 2^32, the word size of SHA-256 arithmetic. -/
def w32 (n : Nat) : Nat := n % 4294967296

/-- Rotate a 32-bit word right by `n` bits. -/
def rotr (x n : Nat) : Nat := (x >>> n) ||| w32 (x <<< (32 - n))

def smallSigma0 (x : Nat) : Nat := rotr x 7 ^^^ rotr x 18 ^^^ (x >>> 3)

def smallSigma1 (x : Nat) : Nat := rotr x 17 ^^^ rotr x 19 ^^^ (x >>> 10)

def bigSigma0 (x : Nat) : Nat := rotr x 2 ^^^ rotr x 13 ^^^ rotr x 22

def bigSigma1 (x : Nat) : Nat := rotr x 6 ^^^ rotr x 11 ^^^ rotr x 25

def chFn (e f g : Nat) : Nat := (e &&& f) ^^^ ((e ^^^ 4294967295) &&& g)

def majFn (a b c : Nat) : Nat := (a &&& b) ^^^ (a &&& c) ^^^ (b &&& c)

/-- The 64 SHA-256 round constants (FIPS 180-4 section 4.2.2, in decimal). -/
def shaK : List Nat :=
  [1116352408, 1899447441, 3049323471, 3921009573, 961987163, 1508970993,
   2453635748, 2870763221, 3624381080, 310598401, 607225278, 1426881987,
   1925078388, 2162078206, 2614888103, 3248222580, 3835390401, 4022224774,
   264347078, 604807628, 770255983, 1249150122, 1555081692, 1996064986,
   2554220882, 2821834349, 2952996808, 3210313671, 3336571891, 3584528711,
   113926993, 338241895, 666307205, 773529912, 1294757372, 1396182291,
   1695183700, 1986661051, 2177026350, 2456956037, 2730485921, 2820302411,
   3259730800, 3345764771, 3516065817, 3600352804, 4094571909, 275423344,
   430227734, 506948616, 659060556, 883997877, 958139571, 1322822218,
   1537002063, 1747873779, 1955562222, 2024104815, 2227730452, 2361852424,
   2428436474, 2756734187, 3204031479, 3329325298]

/-- The eight 32-bit working variables of the SHA-256 compression function. -/
structure Hs where
  a : Nat
  b : Nat
  c : Nat
  d : Nat
  e : Nat
  f : Nat
  g : Nat
  h : Nat
deriving Repr, DecidableEq

/-- Initial SHA-256 hash state (FIPS 180-4 section 5.3.3, in decimal). -/
def initH : Hs :=
  ⟨1779033703, 3144134277, 1013904242, 2773480762,
   1359893119, 2600822924, 528734635, 1541459225⟩

/-- Big-endian byte decomposition of `n` into `k` bytes. -/
def toBytesBE (k n : Nat) : List Nat :=
  (List.range k).map (fun i => (n >>> (8 * (k - 1 - i))) &&& 255)

/-- The `i`-th big-endian 32-bit word of a 64-byte block. -/
def wordAt (block : List Nat) (i : Nat) : Nat :=
  block.getD (4 * i) 0 * 16777216 + block.getD (4 * i + 1) 0 * 65536 +
    block.getD (4 * i + 2) 0 * 256 + block.getD (4 * i + 3) 0

def toWords (block : List Nat) : List Nat := (List.range 16).map (wordAt block)

/-- Split a byte list into blocks of 64 bytes. -/
def chunks64 (l : List Nat) : List (List Nat) :=
  if h : l = [] then [] else l.take 64 :: chunks64 (l.drop 64)
termination_by l.length
decreasing_by
  simp only [List.length_drop]
  have := List.length_pos.mpr h
  omega

def wAt (w : List Nat) (i : Nat) : Nat := w.getD i 0

/-- Extend the 16 message words to the full 64-entry message schedule. -/
def extendSchedule : List Nat → Nat → List Nat
  | w, 0 => w
  | w, n + 1 =>
    extendSchedule
      (w ++ [w32 (smallSigma1 (wAt w (w.length - 2)) + wAt w (w.length - 7) +
        smallSigma0 (wAt w (w.length - 15)) + wAt w (w.length - 16))]) n

/-- One round of the SHA-256 compression function. -/
def roundStep (s : Hs) (kw : Nat × Nat) : Hs :=
  let T1 := w32 (s.h + bigSigma1 s.e + chFn s.e s.f s.g + kw.1 + kw.2)
  let T2 := w32 (bigSigma0 s.a + majFn s.a s.b s.c)
  ⟨w32 (T1 + T2), s.a, s.b, s.c, w32 (s.d + T1), s.e, s.f, s.g⟩

/-- Compress one 64-byte block into the running hash state. -/
def compress (H : Hs) (block : List Nat) : Hs :=
  let W := extendSchedule (toWords block) 48
  let s := (shaK.zip W).foldl roundStep H
  ⟨w32 (H.a + s.a), w32 (H.b + s.b), w32 (H.c + s.c), w32 (H.d + s.d),
   w32 (H.e + s.e), w32 (H.f + s.f), w32 (H.g + s.g), w32 (H.h + s.h)⟩

def hexDigit (n : Nat) : Char := if n < 10 then Char.ofNat (48 + n) else Char.ofNat (87 + n)

def toHex8 (x : Nat) : List Char :=
  (List.range 8).map (fun i => hexDigit ((x >>> (28 - 4 * i)) &&& 15))

/-- SHA-256 of a byte list as a lowercase hex string (matches `hexdigest()`). -/
def sha256hex (msg : List Nat) : String :=
  let L := msg.length
  let padded := msg ++ 128 :: List.replicate ((55 + 64 - L % 64) % 64) 0 ++ toBytesBE 8 (L * 8)
  let H := (chunks64 padded).foldl compress initH
  String.mk (toHex8 H.a ++ toHex8 H.b ++ toHex8 H.c ++ toHex8 H.d ++
    toHex8 H.e ++ toHex8 H.f ++ toHex8 H.g ++ toHex8 H.h)

/-- UTF-8 encoding of a single code point, as `str.encode()` performs it. -/
def utf8EncodeChar (c : Char) : List Nat :=
  let n := c.toNat
  if n < 128 then [n]
  else if n < 2048 then [192 + n / 64, 128 + n % 64]
  else if n < 65536 then [224 + n / 4096, 128 + n / 64 % 64, 128 + n % 64]
  else [240 + n / 262144, 128 + n / 4096 % 64, 128 + n / 64 % 64, 128 + n % 64]

/-- UTF-8 bytes of a string (Python `s.encode()`). -/
def utf8Bytes (s : String) : List Nat := s.data.flatMap utf8EncodeChar

/-! ### Constants and hashing helpers of `vectorizer.py` -/

/-- Maximum stored content length (`MAX_CONTENT_LENGTH = 10000`). -/
def MAX_CONTENT_LENGTH : Nat := 10000

/-- Python slicing `s[:n]`: the first `n` code points of `s`. -/
def strTake (s : String) (n : Nat) : String := String.mk (s.data.take n)

/-- Compute SHA256 hash of content (`compute_hash`). -/
def compute_hash (content : String) : String := sha256hex (utf8Bytes content)

/-- Convert filename to SurrealDB record ID using SHA256 hash (`filename_to_id`). -/
def filename_to_id (filename : String) : String := sha256hex (utf8Bytes filename)

/-! ### The document store

SurrealDB's `documents` table is modelled as an association list from record
id to record.  `UPSERT table:id` replaces the record held under `id` or
creates it; `DELETE table:id` removes it.
-/

/-- A row of the `documents` table.  The embedding type `E` is abstract: the
OpenAI client is an external collaborator modelled as a function into `E`. -/
structure Record (E : Type) where
  filename : String
  content : String
  embedding : E
  hash : String
deriving Repr, DecidableEq

/-- The store: record id to record, in table order. -/
abbrev Db (E : Type) := List (String × Record E)

def dbGet {E : Type} (db : Db E) (key : String) : Option (Record E) :=
  (db.find? (fun p => p.1 = key)).map (fun p => p.2)

def dbUpsert {E : Type} (db : Db E) (key : String) (r : Record E) : Db E :=
  if db.any (fun p => p.1 = key) then
    db.map (fun p => if p.1 = key then (key, r) else p)
  else db ++ [(key, r)]

def dbDelete {E : Type} (db : Db E) (key : String) : Db E :=
  db.filter (fun p => !(p.1 = key : Bool))

/-! Python dictionaries built by comprehension: insertion keeps first-seen key
order and the last value written for a key wins. -/

def dictInsert {α : Type} (m : List (String × α)) (k : String) (v : α) : List (String × α) :=
  if m.any (fun p => p.1 = k) then m.map (fun p => if p.1 = k then (k, v) else p)
  else m ++ [(k, v)]

def dictOfList {α : Type} (l : List (String × α)) : List (String × α) :=
  l.foldl (fun m p => dictInsert m p.1 p.2) []

def dictLookup {α : Type} (m : List (String × α)) (k : String) : Option α :=
  (m.find? (fun p => p.1 = k)).map (fun p => p.2)

/-- Load existing records, returned as a dict keyed by filename
(`load_existing_records`). -/
def load_existing_records {E : Type} (db : Db E) : List (String × Record E) :=
  dictOfList (db.map (fun p => (p.2.filename, p.2)))

/-- Delete a record by filename (`delete_record`). -/
def delete_record {E : Type} (db : Db E) (filename : String) : Db E :=
  let record_id := filename_to_id filename
  dbDelete db record_id

/-- Insert or update a record (`upsert_record`). -/
def upsert_record {E : Type} (db : Db E) (filename content : String) (embedding : E)
    (content_hash : String) : Db E :=
  let record_id := filename_to_id filename
  dbUpsert db record_id ⟨filename, content, embedding, content_hash⟩

/-- Generate embedding using OpenAI API (`get_embedding`); the client is the
abstract function `embed`. -/
def get_embedding {E : Type} (embed : String → E) (text : String) : E := embed text

/-! ### The `run` pipeline (lines 129–198 of `vectorizer.py`)

Configuration resolution, connection setup and file reading are external
I/O; `run` here starts from the loaded store `db` and the scanned list
`md_files` of `(relative path, raw file content)` pairs.
-/

/-- Classification of one scanned document. -/
inductive Class
  | new
  | updated
  | unchanged
deriving Repr, DecidableEq

/-- Observable actions of a run, in the order the program performs them. -/
inductive Event (E : Type)
  | classify (filename : String) (c : Class)
  | embedReq (content : String)
  | upsert (key filename content : String) (embedding : E) (hash : String)
  | deleteRec (key : String)
deriving Repr, DecidableEq

/-- The `stats` dictionary of the run. -/
structure Stats where
  new : Nat
  updated : Nat
  unchanged : Nat
deriving Repr, DecidableEq

/-- Mutable state of the per-file loop. -/
structure LoopState (E : Type) where
  db : Db E
  exceeded_limit : Bool
  current_filenames : List String
  stats : Stats
  events : List (Event E)
  msgs : List String
deriving Repr

/-- Content normalization: truncate to the maximum length (lines 151–154). -/
def normalizeContent (content : String) : String :=
  if content.length > MAX_CONTENT_LENGTH then strTake content MAX_CONTENT_LENGTH else content

/-- Change detection for one document against the loaded snapshot
(lines 158–169): compare the stored hash with the hash of the
(possibly truncated) content. -/
def classOf {E : Type} (existing_records : List (String × Record E))
    (relative_path content : String) : Class :=
  match dictLookup existing_records relative_path with
  | some existing => if existing.hash = compute_hash content then .unchanged else .updated
  | none => .new

def warnMsg (relative_path : String) : String :=
  s!"Warning: {relative_path} exceeds {MAX_CONTENT_LENGTH} chars, truncating"

def classMsg (relative_path : String) : Class → String
  | .new => s!"New: {relative_path}"
  | .updated => s!"Updated: {relative_path}"
  | .unchanged => s!"Unchanged: {relative_path}"

def bumpStats (s : Stats) : Class → Stats
  | .new => { s with new := s.new + 1 }
  | .updated => { s with updated := s.updated + 1 }
  | .unchanged => { s with unchanged := s.unchanged + 1 }

/-- Body of the `for md_file in md_files` loop (lines 145–172). -/
def processFile {E : Type} (embed : String → E) (existing_records : List (String × Record E))
    (st : LoopState E) (doc : String × String) : LoopState E :=
  let relative_path := doc.1
  let raw := doc.2
  let truncated : Bool := raw.length > MAX_CONTENT_LENGTH
  let content := normalizeContent raw
  let content_hash := compute_hash content
  let cls := classOf existing_records relative_path content
  let st := { st with
    current_filenames := st.current_filenames ++ [relative_path],
    msgs := st.msgs ++ (if truncated then [warnMsg relative_path] else [])
      ++ [classMsg relative_path cls],
    exceeded_limit := st.exceeded_limit || truncated,
    stats := bumpStats st.stats cls,
    events := st.events ++ [Event.classify relative_path cls] }
  if cls = Class.unchanged then st
  else
    let embedding := get_embedding embed content
    { st with
      events := st.events ++ [Event.embedReq content,
        Event.upsert (filename_to_id relative_path) relative_path content embedding content_hash],
      db := upsert_record st.db relative_path content embedding content_hash }

/-- Result of one invocation of `run`. -/
structure RunResult (E : Type) where
  db : Db E
  events : List (Event E)
  msgs : List String
  stats : Stats
  docs_before : Nat
  docs_after : Nat
  deleted_count : Nat
  exitCode : Nat
deriving Repr

/-- The reconciliation pipeline `run`, from the loaded store and the scanned
files to the final store, the action trace, the printed lines, the statistics
and the process exit code. -/
def run {E : Type} (embed : String → E) (db : Db E) (md_files : List (String × String)) :
    RunResult E :=
  let existing_records := load_existing_records db
  let docs_before := existing_records.length
  if md_files.isEmpty then
    { db := db, events := [], msgs := ["No markdown files found"], stats := ⟨0, 0, 0⟩,
      docs_before := docs_before, docs_after := docs_before, deleted_count := 0, exitCode := 0 }
  else
    let st := md_files.foldl (processFile embed existing_records)
      { db := db, exceeded_limit := false, current_filenames := [], stats := ⟨0, 0, 0⟩,
        events := [], msgs := [] }
    let deleted_filenames := (existing_records.map Prod.fst).filter
      (fun f => !(st.current_filenames.contains f))
    let db2 := deleted_filenames.foldl delete_record st.db
    let deleted_count := deleted_filenames.length
    let docs_after := docs_before + st.stats.new - deleted_count
    let nNew := st.stats.new
    let nUpd := st.stats.updated
    let nUnch := st.stats.unchanged
    let msgs := st.msgs
      ++ (if deleted_count > 0 then [s!"Removed {deleted_count} deleted file(s)"] else [])
      ++ ["", "Statistics:",
          s!"  Documents before: {docs_before}",
          s!"  Documents after:  {docs_after}",
          s!"  New:       {nNew}",
          s!"  Updated:   {nUpd}",
          s!"  Unchanged: {nUnch}",
          s!"  Deleted:   {deleted_count}"]
      ++ (if st.exceeded_limit then
            ["Exiting with error: one or more files exceeded the character limit"]
          else [])
    { db := db2,
      events := st.events ++ deleted_filenames.map (fun f => Event.deleteRec (filename_to_id f)),
      msgs := msgs, stats := st.stats, docs_before := docs_before, docs_after := docs_after,
      deleted_count := deleted_count,
      exitCode := if st.exceeded_limit then 1 else 0 }

/-! ### Views over run results used in the statements -/

/-- Classification decisions recorded in a trace, in order. -/
def classesOf {E : Type} (events : List (Event E)) : List (String × Class) :=
  events.filterMap (fun e => match e with
    | .classify f c => some (f, c)
    | _ => none)

/-- Contents of the embedding requests in a trace, in order. -/
def embedContents {E : Type} (events : List (Event E)) : List String :=
  events.filterMap (fun e => match e with
    | .embedReq c => some c
    | _ => none)

/-- The upsert events of a trace that carry filename `f`. -/
def upsertsFor {E : Type} (f : String) (events : List (Event E)) : List (Event E) :=
  events.filter (fun e => match e with
    | .upsert _ g _ _ _ => g = f
    | _ => false)

/-- Keys targeted by the delete events of a trace, in order. -/
def deleteKeys {E : Type} (events : List (Event E)) : List String :=
  events.filterMap (fun e => match e with
    | .deleteRec k => some k
    | _ => none)

def isMutationEvent {E : Type} : Event E → Bool
  | .upsert _ _ _ _ _ => true
  | .deleteRec _ => true
  | _ => false

def isClassifyEvent {E : Type} : Event E → Bool
  | .classify _ _ => true
  | _ => false

def isDeleteEvent {E : Type} : Event E → Bool
  | .deleteRec _ => true
  | _ => false

def isReqOrUpsertEvent {E : Type} : Event E → Bool
  | .embedReq _ => true
  | .upsert _ _ _ _ _ => true
  | _ => false

/-- True when some mutation event occurs strictly before some classification
event in the trace. -/
def anyMutationBeforeClassify {E : Type} : List (Event E) → Bool
  | [] => false
  | e :: rest => (isMutationEvent e && rest.any isClassifyEvent) || anyMutationBeforeClassify rest

/-- The filenames stored in the table, in table order. -/
def filenamesOf {E : Type} (db : Db E) : List String := db.map (fun p => p.2.filename)

/-- The first record stored with filename `f`. -/
def byFilename {E : Type} (db : Db E) (f : String) : Option (Record E) :=
  (db.find? (fun p => p.2.filename = f)).map (fun p => p.2)

/-- Well-formed store: every record sits under the key derived from its
filename (all writes go through `upsert_record`), and no filename occurs
twice. -/
def WFdb {E : Type} (db : Db E) : Prop :=
  (∀ p ∈ db, p.1 = filename_to_id p.2.filename) ∧ (filenamesOf db).Nodup

/-- Key derivation is collision-free on the given identities.  SHA-256 makes
this hold for any concretely occurring set of filenames; it is an explicit
hypothesis because the embedding treats the digest as an ordinary function. -/
def KeyInj (ids : List String) : Prop :=
  ∀ a ∈ ids, ∀ b ∈ ids, filename_to_id a = filename_to_id b → a = b

/-! ### Derived descriptions of the loop, proved equal to the source fold -/

/-- The events one document contributes to the trace. -/
def docEvents {E : Type} (embed : String → E) (snap : List (String × Record E))
    (d : String × String) : List (Event E) :=
  let content := normalizeContent d.2
  let cls := classOf snap d.1 content
  Event.classify d.1 cls ::
    (if cls = Class.unchanged then []
     else [Event.embedReq content,
       Event.upsert (filename_to_id d.1) d.1 content (embed content) (compute_hash content)])

/-- The store effect of processing one document. -/
def upsertStep {E : Type} (embed : String → E) (snap : List (String × Record E))
    (db : Db E) (d : String × String) : Db E :=
  let content := normalizeContent d.2
  if classOf snap d.1 content = Class.unchanged then db
  else upsert_record db d.1 content (embed content) (compute_hash content)

/-- Snapshot filenames that were not scanned, in snapshot order. -/
def deletedList {E : Type} (db : Db E) (docs : List (String × String)) : List String :=
  ((load_existing_records db).map Prod.fst).filter
    (fun f => !((docs.map Prod.fst).contains f))

theorem processFile_events {E : Type} (embed : String → E) (snap : List (String × Record E))
    (st : LoopState E) (d : String × String) :
    (processFile embed snap st d).events = st.events ++ docEvents embed snap d := by
  by_cases hc : classOf snap d.1 (normalizeContent d.2) = Class.unchanged <;>
    simp [processFile, docEvents, get_embedding, hc]

theorem processFile_db {E : Type} (embed : String → E) (snap : List (String × Record E))
    (st : LoopState E) (d : String × String) :
    (processFile embed snap st d).db = upsertStep embed snap st.db d := by
  by_cases hc : classOf snap d.1 (normalizeContent d.2) = Class.unchanged <;>
    simp [processFile, upsertStep, get_embedding, hc]

theorem processFile_current {E : Type} (embed : String → E) (snap : List (String × Record E))
    (st : LoopState E) (d : String × String) :
    (processFile embed snap st d).current_filenames = st.current_filenames ++ [d.1] := by
  by_cases hc : classOf snap d.1 (normalizeContent d.2) = Class.unchanged <;>
    simp [processFile, hc]

theorem processFile_stats {E : Type} (embed : String → E) (snap : List (String × Record E))
    (st : LoopState E) (d : String × String) :
    (processFile embed snap st d).stats
      = bumpStats st.stats (classOf snap d.1 (normalizeContent d.2)) := by
  by_cases hc : classOf snap d.1 (normalizeContent d.2) = Class.unchanged <;>
    simp [processFile, hc]

theorem processFile_exceeded {E : Type} (embed : String → E) (snap : List (String × Record E))
    (st : LoopState E) (d : String × String) :
    (processFile embed snap st d).exceeded_limit
      = (st.exceeded_limit || decide (d.2.length > MAX_CONTENT_LENGTH)) := by
  by_cases hc : classOf snap d.1 (normalizeContent d.2) = Class.unchanged <;>
    simp [processFile, hc]

theorem foldl_processFile_events {E : Type} (embed : String → E)
    (snap : List (String × Record E)) (docs : List (String × String)) (st : LoopState E) :
    (docs.foldl (processFile embed snap) st).events
      = st.events ++ docs.flatMap (docEvents embed snap) := by
  induction docs generalizing st with
  | nil => simp
  | cons d ds ih =>
    rw [List.foldl_cons, ih, processFile_events]
    simp

theorem foldl_processFile_db {E : Type} (embed : String → E)
    (snap : List (String × Record E)) (docs : List (String × String)) (st : LoopState E) :
    (docs.foldl (processFile embed snap) st).db
      = docs.foldl (upsertStep embed snap) st.db := by
  induction docs generalizing st with
  | nil => simp
  | cons d ds ih =>
    rw [List.foldl_cons, ih, processFile_db, List.foldl_cons]

theorem foldl_processFile_current {E : Type} (embed : String → E)
    (snap : List (String × Record E)) (docs : List (String × String)) (st : LoopState E) :
    (docs.foldl (processFile embed snap) st).current_filenames
      = st.current_filenames ++ docs.map Prod.fst := by
  induction docs generalizing st with
  | nil => simp
  | cons d ds ih =>
    rw [List.foldl_cons, ih, processFile_current]
    simp

theorem foldl_processFile_stats {E : Type} (embed : String → E)
    (snap : List (String × Record E)) (docs : List (String × String)) (st : LoopState E) :
    (docs.foldl (processFile embed snap) st).stats
      = docs.foldl (fun s d => bumpStats s (classOf snap d.1 (normalizeContent d.2))) st.stats := by
  induction docs generalizing st with
  | nil => simp
  | cons d ds ih =>
    rw [List.foldl_cons, ih, processFile_stats, List.foldl_cons]

theorem foldl_processFile_exceeded {E : Type} (embed : String → E)
    (snap : List (String × Record E)) (docs : List (String × String)) (st : LoopState E) :
    (docs.foldl (processFile embed snap) st).exceeded_limit
      = (st.exceeded_limit || docs.any (fun d => decide (d.2.length > MAX_CONTENT_LENGTH))) := by
  induction docs generalizing st with
  | nil => simp
  | cons d ds ih =>
    rw [List.foldl_cons, ih, processFile_exceeded]
    simp [Bool.or_assoc]

theorem run_nil {E : Type} (embed : String → E) (db : Db E) :
    run embed db []
      = { db := db, events := [], msgs := ["No markdown files found"], stats := ⟨0, 0, 0⟩,
          docs_before := (load_existing_records db).length,
          docs_after := (load_existing_records db).length,
          deleted_count := 0, exitCode := 0 } := rfl

theorem run_ne_nil_events {E : Type} (embed : String → E) (db : Db E)
    (docs : List (String × String)) (hne : docs ≠ []) :
    (run embed db docs).events
      = docs.flatMap (docEvents embed (load_existing_records db))
        ++ (deletedList db docs).map (fun f => Event.deleteRec (filename_to_id f)) := by
  obtain ⟨d, ds, rfl⟩ := List.exists_cons_of_ne_nil hne
  simp only [run, List.isEmpty_cons, Bool.false_eq_true, if_false]
  rw [foldl_processFile_events, foldl_processFile_current]
  simp [deletedList]

theorem run_ne_nil_db {E : Type} (embed : String → E) (db : Db E)
    (docs : List (String × String)) (hne : docs ≠ []) :
    (run embed db docs).db
      = (deletedList db docs).foldl delete_record
          (docs.foldl (upsertStep embed (load_existing_records db)) db) := by
  obtain ⟨d, ds, rfl⟩ := List.exists_cons_of_ne_nil hne
  simp only [run, List.isEmpty_cons, Bool.false_eq_true, if_false]
  rw [foldl_processFile_db, foldl_processFile_current]
  simp [deletedList]

theorem run_ne_nil_stats {E : Type} (embed : String → E) (db : Db E)
    (docs : List (String × String)) (hne : docs ≠ []) :
    (run embed db docs).stats
      = docs.foldl
          (fun s d => bumpStats s (classOf (load_existing_records db) d.1 (normalizeContent d.2)))
          ⟨0, 0, 0⟩ := by
  obtain ⟨d, ds, rfl⟩ := List.exists_cons_of_ne_nil hne
  simp only [run, List.isEmpty_cons, Bool.false_eq_true, if_false]
  rw [foldl_processFile_stats]

theorem run_ne_nil_deleted_count {E : Type} (embed : String → E) (db : Db E)
    (docs : List (String × String)) (hne : docs ≠ []) :
    (run embed db docs).deleted_count = (deletedList db docs).length := by
  obtain ⟨d, ds, rfl⟩ := List.exists_cons_of_ne_nil hne
  simp only [run, List.isEmpty_cons, Bool.false_eq_true, if_false]
  rw [foldl_processFile_current]
  simp [deletedList]

theorem run_ne_nil_exitCode {E : Type} (embed : String → E) (db : Db E)
    (docs : List (String × String)) (hne : docs ≠ []) :
    (run embed db docs).exitCode
      = if docs.any (fun d => decide (d.2.length > MAX_CONTENT_LENGTH)) then 1 else 0 := by
  obtain ⟨d, ds, rfl⟩ := List.exists_cons_of_ne_nil hne
  simp only [run, List.isEmpty_cons, Bool.false_eq_true, if_false]
  rw [foldl_processFile_exceeded]
  simp only [Bool.false_or, List.any_cons]

theorem foldl_bumpStats {α : Type} (cl : α → Class) (l : List α) (s : Stats) :
    l.foldl (fun s d => bumpStats s (cl d)) s
      = ⟨s.new + l.countP (fun d => decide (cl d = Class.new)),
         s.updated + l.countP (fun d => decide (cl d = Class.updated)),
         s.unchanged + l.countP (fun d => decide (cl d = Class.unchanged))⟩ := by
  induction l generalizing s with
  | nil => simp
  | cons a l ih =>
    rw [List.foldl_cons, ih]
    rcases h : cl a <;> simp [bumpStats, h, List.countP_cons] <;> omega

theorem classesOf_docEvents {E : Type} (embed : String → E) (snap : List (String × Record E))
    (d : String × String) :
    classesOf (docEvents embed snap d) = [(d.1, classOf snap d.1 (normalizeContent d.2))] := by
  by_cases hc : classOf snap d.1 (normalizeContent d.2) = Class.unchanged <;>
    simp [docEvents, classesOf, hc]

theorem classesOf_flatMap_docEvents {E : Type} (embed : String → E)
    (snap : List (String × Record E)) (docs : List (String × String)) :
    classesOf (docs.flatMap (docEvents embed snap))
      = docs.map (fun d => (d.1, classOf snap d.1 (normalizeContent d.2))) := by
  induction docs with
  | nil => simp [classesOf]
  | cons d ds ih =>
    simp only [List.flatMap_cons, List.map_cons, classesOf, List.filterMap_append]
    rw [← classesOf, ← classesOf, ih, classesOf_docEvents]
    simp

theorem classesOf_deleteMap {E : Type} (l : List String) :
    classesOf ((l.map (fun f => Event.deleteRec (filename_to_id f)) : List (Event E))) = [] := by
  induction l with
  | nil => simp [classesOf]
  | cons a l ih => simpa [classesOf] using ih

/-- The classifications a run makes, one per scanned document in scan order,
each computed from the snapshot loaded at the start. -/
theorem run_classes {E : Type} (embed : String → E) (db : Db E)
    (docs : List (String × String)) (hne : docs ≠ []) :
    classesOf (run embed db docs).events
      = docs.map
          (fun d => (d.1, classOf (load_existing_records db) d.1 (normalizeContent d.2))) := by
  rw [run_ne_nil_events embed db docs hne]
  simp only [classesOf, List.filterMap_append]
  rw [← classesOf, ← classesOf, classesOf_flatMap_docEvents, classesOf_deleteMap]
  simp

theorem embedContents_docEvents {E : Type} (embed : String → E)
    (snap : List (String × Record E)) (d : String × String) :
    embedContents (docEvents embed snap d)
      = if classOf snap d.1 (normalizeContent d.2) = Class.unchanged then []
        else [normalizeContent d.2] := by
  by_cases hc : classOf snap d.1 (normalizeContent d.2) = Class.unchanged <;>
    simp [docEvents, embedContents, hc]

theorem embedContents_flatMap_docEvents {E : Type} (embed : String → E)
    (snap : List (String × Record E)) (docs : List (String × String)) :
    embedContents (docs.flatMap (docEvents embed snap))
      = (docs.filter
            (fun d => !decide (classOf snap d.1 (normalizeContent d.2) = Class.unchanged))).map
          (fun d => normalizeContent d.2) := by
  induction docs with
  | nil => simp [embedContents]
  | cons d ds ih =>
    simp only [List.flatMap_cons, embedContents, List.filterMap_append]
    rw [← embedContents, ← embedContents, ih, embedContents_docEvents]
    by_cases hc : classOf snap d.1 (normalizeContent d.2) = Class.unchanged <;>
      simp [List.filter_cons, hc]

theorem embedContents_deleteMap {E : Type} (l : List String) :
    embedContents ((l.map (fun f => Event.deleteRec (filename_to_id f)) : List (Event E))) = [] := by
  induction l with
  | nil => simp [embedContents]
  | cons a l ih => simpa [embedContents] using ih

/-- The embedding requests a run issues: exactly one per document classified
new or updated, carrying the normalized content, in scan order. -/
theorem run_embedContents {E : Type} (embed : String → E) (db : Db E)
    (docs : List (String × String)) (hne : docs ≠ []) :
    embedContents (run embed db docs).events
      = (docs.filter
            (fun d => !decide (classOf (load_existing_records db) d.1 (normalizeContent d.2)
              = Class.unchanged))).map
          (fun d => normalizeContent d.2) := by
  rw [run_ne_nil_events embed db docs hne]
  simp only [embedContents, List.filterMap_append]
  rw [← embedContents, ← embedContents, embedContents_flatMap_docEvents, embedContents_deleteMap]
  simp

theorem upsertsFor_docEvents_ne {E : Type} (embed : String → E)
    (snap : List (String × Record E)) (d : String × String) (f : String) (hne : d.1 ≠ f) :
    upsertsFor f (docEvents embed snap d) = [] := by
  by_cases hc : classOf snap d.1 (normalizeContent d.2) = Class.unchanged <;>
    simp [docEvents, upsertsFor, hc, hne]

theorem upsertsFor_docEvents_self {E : Type} (embed : String → E)
    (snap : List (String × Record E)) (d : String × String) :
    upsertsFor d.1 (docEvents embed snap d)
      = if classOf snap d.1 (normalizeContent d.2) = Class.unchanged then []
        else [Event.upsert (filename_to_id d.1) d.1 (normalizeContent d.2)
          (embed (normalizeContent d.2)) (compute_hash (normalizeContent d.2))] := by
  by_cases hc : classOf snap d.1 (normalizeContent d.2) = Class.unchanged <;>
    simp [docEvents, upsertsFor, hc]

theorem upsertsFor_flatMap_not_mem {E : Type} (embed : String → E)
    (snap : List (String × Record E)) (docs : List (String × String)) (f : String)
    (hf : f ∉ docs.map Prod.fst) :
    upsertsFor f (docs.flatMap (docEvents embed snap)) = [] := by
  induction docs with
  | nil => simp [upsertsFor]
  | cons d ds ih =>
    simp only [List.map_cons, List.mem_cons, not_or] at hf
    simp only [List.flatMap_cons, upsertsFor, List.filter_append]
    rw [← upsertsFor, ← upsertsFor, ih hf.2, upsertsFor_docEvents_ne embed snap d f
      (fun h => hf.1 h.symm)]
    rfl

theorem upsertsFor_deleteMap {E : Type} (l : List String) (f : String) :
    upsertsFor f ((l.map (fun g => Event.deleteRec (filename_to_id g)) : List (Event E))) = [] := by
  induction l with
  | nil => simp [upsertsFor]
  | cons a l ih => simpa [upsertsFor] using ih

/-- The upserts a run issues for a scanned filename: none when it is
unchanged, exactly one full-record write otherwise, keyed by
`filename_to_id`, carrying the normalized content, its embedding and its
hash. -/
theorem run_upsertsFor {E : Type} (embed : String → E) (db : Db E)
    (docs : List (String × String)) (f : String) (c : String)
    (hmem : (f, c) ∈ docs) (hnd : (docs.map Prod.fst).Nodup) :
    upsertsFor f (run embed db docs).events
      = if classOf (load_existing_records db) f (normalizeContent c) = Class.unchanged then []
        else [Event.upsert (filename_to_id f) f (normalizeContent c)
          (embed (normalizeContent c)) (compute_hash (normalizeContent c))] := by
  have hne : docs ≠ [] := List.ne_nil_of_mem hmem
  rw [run_ne_nil_events embed db docs hne]
  simp only [upsertsFor, List.filter_append]
  rw [← upsertsFor, ← upsertsFor, upsertsFor_deleteMap, List.append_nil]
  clear hne
  induction docs with
  | nil => cases hmem
  | cons d ds ih =>
    simp only [List.map_cons, List.nodup_cons] at hnd
    rcases List.mem_cons.mp hmem with h | h
    · subst h
      simp only [List.flatMap_cons, upsertsFor, List.filter_append]
      rw [← upsertsFor, ← upsertsFor, upsertsFor_flatMap_not_mem embed _ ds f hnd.1,
        List.append_nil]
      exact upsertsFor_docEvents_self embed _ (f, c)
    · have hd1 : d.1 ≠ f := by
        intro hEq
        exact hnd.1 (hEq ▸ (List.mem_map_of_mem Prod.fst h))
      simp only [List.flatMap_cons, upsertsFor, List.filter_append]
      rw [← upsertsFor, ← upsertsFor, upsertsFor_docEvents_ne embed _ d f hd1,
        List.nil_append]
      exact ih h hnd.2

theorem deleteKeys_docEvents {E : Type} (embed : String → E)
    (snap : List (String × Record E)) (d : String × String) :
    deleteKeys (docEvents embed snap d) = [] := by
  by_cases hc : classOf snap d.1 (normalizeContent d.2) = Class.unchanged <;>
    simp [docEvents, deleteKeys, hc]

theorem deleteKeys_flatMap_docEvents {E : Type} (embed : String → E)
    (snap : List (String × Record E)) (docs : List (String × String)) :
    deleteKeys (docs.flatMap (docEvents embed snap)) = [] := by
  induction docs with
  | nil => simp [deleteKeys]
  | cons d ds ih =>
    simp only [List.flatMap_cons, deleteKeys, List.filterMap_append]
    rw [← deleteKeys, ← deleteKeys, ih, deleteKeys_docEvents]
    simp

theorem deleteKeys_deleteMap {E : Type} (l : List String) :
    deleteKeys ((l.map (fun g => Event.deleteRec (filename_to_id g)) : List (Event E)))
      = l.map filename_to_id := by
  induction l with
  | nil => simp [deleteKeys]
  | cons a l ih => simpa [deleteKeys] using ih

/-- The delete events a run issues: exactly one per snapshot filename absent
from the scan, keyed by `filename_to_id`. -/
theorem run_deleteKeys {E : Type} (embed : String → E) (db : Db E)
    (docs : List (String × String)) (hne : docs ≠ []) :
    deleteKeys (run embed db docs).events = (deletedList db docs).map filename_to_id := by
  rw [run_ne_nil_events embed db docs hne]
  simp only [deleteKeys, List.filterMap_append]
  rw [← deleteKeys, ← deleteKeys, deleteKeys_flatMap_docEvents, deleteKeys_deleteMap]
  simp

theorem classOf_eq_new_iff {E : Type} (snap : List (String × Record E)) (f content : String) :
    classOf snap f content = Class.new ↔ dictLookup snap f = none := by
  unfold classOf
  rcases h : dictLookup snap f with _ | e
  · simp
  · simp only [h, Option.some.injEq]
    constructor
    · intro hc
      split at hc <;> cases hc
    · intro hc
      cases hc

theorem classOf_eq_updated_iff {E : Type} (snap : List (String × Record E)) (f content : String) :
    classOf snap f content = Class.updated
      ↔ ∃ e, dictLookup snap f = some e ∧ e.hash ≠ compute_hash content := by
  unfold classOf
  rcases h : dictLookup snap f with _ | e
  · simp
  · simp only [h, Option.some.injEq]
    constructor
    · intro hc
      refine ⟨e, rfl, ?_⟩
      intro habs
      rw [if_pos habs] at hc
      cases hc
    · rintro ⟨e', he', hne⟩
      cases he'
      rw [if_neg hne]

theorem classOf_eq_unchanged_iff {E : Type} (snap : List (String × Record E)) (f content : String) :
    classOf snap f content = Class.unchanged
      ↔ ∃ e, dictLookup snap f = some e ∧ e.hash = compute_hash content := by
  unfold classOf
  rcases h : dictLookup snap f with _ | e
  · simp
  · simp only [h, Option.some.injEq]
    constructor
    · intro hc
      refine ⟨e, rfl, ?_⟩
      by_contra habs
      rw [if_neg habs] at hc
      cases hc
    · rintro ⟨e', he', hEq⟩
      cases he'
      rw [if_pos hEq]

/-- Under identity uniqueness, the run's recorded classification of a scanned
document is exactly `classOf` of the initial snapshot. -/
theorem mem_run_classes_iff {E : Type} (embed : String → E) (db : Db E)
    (docs : List (String × String)) (f c : String) (hmem : (f, c) ∈ docs)
    (hnd : (docs.map Prod.fst).Nodup) (cls : Class) :
    (f, cls) ∈ classesOf (run embed db docs).events
      ↔ classOf (load_existing_records db) f (normalizeContent c) = cls := by
  rw [run_classes embed db docs (List.ne_nil_of_mem hmem)]
  constructor
  · intro h
    obtain ⟨d, hd, hEq⟩ := List.mem_map.mp h
    have h1 : d.1 = f := congrArg Prod.fst hEq
    have h2 : d = (f, c) := by
      have := List.inj_on_of_nodup_map hnd hd hmem (by simpa using h1)
      exact this
    rw [h2] at hEq
    exact congrArg Prod.snd hEq
  · intro h
    exact List.mem_map.mpr ⟨(f, c), hmem, by simp [h]⟩

theorem reqUpserts_docEvents {E : Type} (embed : String → E)
    (snap : List (String × Record E)) (d : String × String) :
    (docEvents embed snap d).filter isReqOrUpsertEvent
      = if classOf snap d.1 (normalizeContent d.2) = Class.unchanged then []
        else [Event.embedReq (normalizeContent d.2),
          Event.upsert (filename_to_id d.1) d.1 (normalizeContent d.2)
            (embed (normalizeContent d.2)) (compute_hash (normalizeContent d.2))] := by
  by_cases hc : classOf snap d.1 (normalizeContent d.2) = Class.unchanged <;>
    simp [docEvents, isReqOrUpsertEvent, hc]

theorem reqUpserts_deleteMap {E : Type} (l : List String) :
    ((l.map (fun g => Event.deleteRec (filename_to_id g)) : List (Event E))).filter
        isReqOrUpsertEvent = [] := by
  induction l with
  | nil => simp
  | cons a l ih => simpa [isReqOrUpsertEvent] using ih

/-- The embedding requests and upserts of a run, in order: for each document
classified new or updated (in scan order), one request with the normalized
content immediately followed by one upsert of the full record. -/
theorem run_reqUpserts {E : Type} (embed : String → E) (db : Db E)
    (docs : List (String × String)) (hne : docs ≠ []) :
    (run embed db docs).events.filter isReqOrUpsertEvent
      = (docs.filter
          (fun d => !decide (classOf (load_existing_records db) d.1 (normalizeContent d.2)
            = Class.unchanged))).flatMap
          (fun d => [Event.embedReq (normalizeContent d.2),
            Event.upsert (filename_to_id d.1) d.1 (normalizeContent d.2)
              (embed (normalizeContent d.2)) (compute_hash (normalizeContent d.2))]) := by
  rw [run_ne_nil_events embed db docs hne, List.filter_append, reqUpserts_deleteMap,
    List.append_nil]
  clear hne
  induction docs with
  | nil => simp
  | cons d ds ih =>
    simp only [List.flatMap_cons, List.filter_append, List.filter_cons]
    rw [ih, reqUpserts_docEvents]
    by_cases hc : classOf (load_existing_records db) d.1 (normalizeContent d.2)
        = Class.unchanged <;> simp [hc]

theorem isDeleteEvent_docEvents {E : Type} (embed : String → E)
    (snap : List (String × Record E)) (d : String × String) (e : Event E)
    (he : e ∈ docEvents embed snap d) : isDeleteEvent e = false := by
  by_cases hc : classOf snap d.1 (normalizeContent d.2) = Class.unchanged <;>
    simp only [docEvents, hc] at he <;> simp at he
  · rw [he]
    rfl
  · rcases he with h | h | h <;> rw [h] <;> rfl

/-- All delete events of a run form a suffix of the trace: every mutation of
the deleted set happens after the whole scan loop. -/
theorem run_deletes_last {E : Type} (embed : String → E) (db : Db E)
    (docs : List (String × String)) :
    (run embed db docs).events
      = (run embed db docs).events.filter (fun e => !isDeleteEvent e)
        ++ (run embed db docs).events.filter isDeleteEvent := by
  rcases docs with _ | ⟨d, ds⟩
  · rw [run_nil]
    rfl
  · have hne : (d :: ds) ≠ [] := by simp
    rw [run_ne_nil_events embed db _ hne, List.filter_append, List.filter_append]
    have hA : ∀ e ∈ (d :: ds).flatMap (docEvents embed (load_existing_records db)),
        isDeleteEvent e = false := by
      intro e he
      obtain ⟨d', _, he'⟩ := List.mem_flatMap.mp he
      exact isDeleteEvent_docEvents _ _ _ _ he'
    have h1 : ((d :: ds).flatMap (docEvents embed (load_existing_records db))).filter
        (fun e => !isDeleteEvent e)
        = (d :: ds).flatMap (docEvents embed (load_existing_records db)) :=
      List.filter_eq_self.mpr (fun a ha => by rw [hA a ha]; rfl)
    have h2 : ((d :: ds).flatMap (docEvents embed (load_existing_records db))).filter
        isDeleteEvent = [] :=
      List.filter_eq_nil_iff.mpr (fun a ha => by rw [hA a ha]; exact Bool.false_ne_true)
    have h3 : ∀ (l : List String),
        ((l.map (fun f => Event.deleteRec (filename_to_id f)) : List (Event E))).filter
          isDeleteEvent = l.map (fun f => Event.deleteRec (filename_to_id f)) :=
      fun l => List.filter_eq_self.mpr (fun a ha => by
        obtain ⟨g, _, hg⟩ := List.mem_map.mp ha
        rw [← hg]
        rfl)
    have h4 : ∀ (l : List String),
        ((l.map (fun f => Event.deleteRec (filename_to_id f)) : List (Event E))).filter
          (fun e => !isDeleteEvent e) = [] :=
      fun l => List.filter_eq_nil_iff.mpr (fun a ha => by
        obtain ⟨g, _, hg⟩ := List.mem_map.mp ha
        rw [← hg]
        simp [isDeleteEvent])
    rw [h1, h2, h3, h4, List.append_nil, List.nil_append]

/-! ### Claims -/

/-- C1 fails as stated on an empty scan: the run exits early, so no delete is
issued even though the snapshot (and hence the claimed Deleted set, snapshot
identities minus scanned identities) is nonempty. -/
theorem C1_counterexample :
    ¬ (deleteKeys (run (fun _ => (0 : Nat))
          [(filename_to_id "old.md", ⟨"old.md", "text", 0, compute_hash "text"⟩)] []).events
        = (deletedList
            [(filename_to_id "old.md", ⟨"old.md", "text", 0, compute_hash "text"⟩)]
            []).map filename_to_id) := by
  intro h
  rw [run_nil] at h
  simp only [deleteKeys, List.filterMap_nil, deletedList, load_existing_records] at h
  exact absurd h.symm (by simp [dictOfList, dictInsert])

/-- C1 (amended: for every run that scans at least one document — an empty
scan exits early and computes no deleted set): each scanned document is
classified New exactly when its identity is absent from the loaded snapshot,
Updated exactly when present with a differing fingerprint, Unchanged exactly
when present with an equal fingerprint, and the delete events target exactly
the snapshot identities minus the scanned identities. -/
theorem C1_classification_amended {E : Type} (embed : String → E) (db : Db E)
    (docs : List (String × String)) (f c : String) (hmem : (f, c) ∈ docs)
    (hnd : (docs.map Prod.fst).Nodup) :
    ((f, Class.new) ∈ classesOf (run embed db docs).events
        ↔ dictLookup (load_existing_records db) f = none)
    ∧ ((f, Class.updated) ∈ classesOf (run embed db docs).events
        ↔ ∃ e, dictLookup (load_existing_records db) f = some e
            ∧ e.hash ≠ compute_hash (normalizeContent c))
    ∧ ((f, Class.unchanged) ∈ classesOf (run embed db docs).events
        ↔ ∃ e, dictLookup (load_existing_records db) f = some e
            ∧ e.hash = compute_hash (normalizeContent c))
    ∧ deleteKeys (run embed db docs).events
        = (((load_existing_records db).map Prod.fst).filter
            (fun g => !((docs.map Prod.fst).contains g))).map filename_to_id := by
  refine ⟨?_, ?_, ?_, ?_⟩
  · rw [mem_run_classes_iff embed db docs f c hmem hnd, classOf_eq_new_iff]
  · rw [mem_run_classes_iff embed db docs f c hmem hnd, classOf_eq_updated_iff]
  · rw [mem_run_classes_iff embed db docs f c hmem hnd, classOf_eq_unchanged_iff]
  · rw [run_deleteKeys embed db docs (List.ne_nil_of_mem hmem)]
    rfl

theorem C1_witness :
    (("a.md", "hi") ∈ [("a.md", "hi")])
    ∧ ((List.map Prod.fst [("a.md", "hi")]).Nodup)
    ∧ ((("a.md", Class.new) ∈ classesOf
          (run (fun _ => (0 : Nat)) ([] : Db Nat) [("a.md", "hi")]).events
        ↔ dictLookup (load_existing_records ([] : Db Nat)) "a.md" = none)
      ∧ ((("a.md", Class.updated) ∈ classesOf
            (run (fun _ => (0 : Nat)) ([] : Db Nat) [("a.md", "hi")]).events)
          ↔ ∃ e, dictLookup (load_existing_records ([] : Db Nat)) "a.md" = some e
              ∧ e.hash ≠ compute_hash (normalizeContent "hi"))
      ∧ ((("a.md", Class.unchanged) ∈ classesOf
            (run (fun _ => (0 : Nat)) ([] : Db Nat) [("a.md", "hi")]).events)
          ↔ ∃ e, dictLookup (load_existing_records ([] : Db Nat)) "a.md" = some e
              ∧ e.hash = compute_hash (normalizeContent "hi"))
      ∧ deleteKeys (run (fun _ => (0 : Nat)) ([] : Db Nat) [("a.md", "hi")]).events
          = (((load_existing_records ([] : Db Nat)).map Prod.fst).filter
              (fun g => !((List.map Prod.fst [("a.md", "hi")]).contains g))).map
              filename_to_id) :=
  ⟨List.mem_singleton.mpr rfl, by decide,
    C1_classification_amended (fun _ => (0 : Nat)) ([] : Db Nat) [("a.md", "hi")] "a.md" "hi"
      (List.mem_singleton.mpr rfl) (by decide)⟩

/-- C2 fails as stated: with an empty scan and a nonempty snapshot the run
issues no delete at all (it exits early), although the snapshot identity
`gone.md` ought to be in the Deleted set according to the claim. -/
theorem C2_counterexample :
    deleteKeys (run (fun _ => (0 : Nat))
        [(filename_to_id "gone.md", ⟨"gone.md", "text", 0, compute_hash "text"⟩)] []).events
      = []
    ∧ (load_existing_records
        ([(filename_to_id "gone.md", ⟨"gone.md", "text", 0, compute_hash "text"⟩)]
          : Db Nat)).map Prod.fst = ["gone.md"] := by
  constructor
  · rw [run_nil]
    rfl
  · simp [load_existing_records, dictOfList, dictInsert]

/-- C2 (amended): when the current scan yields an empty document set the run
prints "No markdown files found" and terminates successfully at once: nothing
is classified (no New/Updated/Unchanged), no delete is issued for the
snapshot identities, and the store is left exactly as loaded. -/
theorem C2_empty_scan_amended {E : Type} (embed : String → E) (db : Db E) :
    (run embed db []).events = []
    ∧ (run embed db []).db = db
    ∧ (run embed db []).stats = ⟨0, 0, 0⟩
    ∧ (run embed db []).deleted_count = 0
    ∧ (run embed db []).exitCode = 0
    ∧ (run embed db []).msgs = ["No markdown files found"] := by
  rw [run_nil]
  exact ⟨rfl, rfl, rfl, rfl, rfl, rfl⟩

/-- C3: if zero documents are scanned, the run reports "No markdown files
found" and terminates with exit code 0 without issuing any event against the
store (no upsert, no delete), leaving the store untouched. -/
theorem C3_empty_scan_success {E : Type} (embed : String → E) (db : Db E)
    (docs : List (String × String)) (hempty : docs = []) :
    (run embed db docs).exitCode = 0
    ∧ (run embed db docs).events = []
    ∧ (run embed db docs).db = db
    ∧ (run embed db docs).msgs = ["No markdown files found"] := by
  subst hempty
  rw [run_nil]
  exact ⟨rfl, rfl, rfl, rfl⟩

theorem C3_witness :
    (([] : List (String × String)) = [])
    ∧ ((run (fun _ => (0 : Nat)) ([] : Db Nat) ([] : List (String × String))).exitCode = 0
      ∧ (run (fun _ => (0 : Nat)) ([] : Db Nat) ([] : List (String × String))).events = []
      ∧ (run (fun _ => (0 : Nat)) ([] : Db Nat) ([] : List (String × String))).db = []
      ∧ (run (fun _ => (0 : Nat)) ([] : Db Nat) ([] : List (String × String))).msgs
          = ["No markdown files found"]) :=
  ⟨rfl, C3_empty_scan_success (fun _ => (0 : Nat)) ([] : Db Nat) [] rfl⟩

/-- C4: every document whose raw content exceeds `MAX_CONTENT_LENGTH` is
processed through its truncation: the normalized content is exactly the first
`MAX_CONTENT_LENGTH` characters of the original, the run classifies the
document by the fingerprint of that truncated content, and any upsert for it
stores the truncated content, its embedding and the fingerprint of the
truncated content — never the original raw content. -/
theorem C4_truncation {E : Type} (embed : String → E) (db : Db E)
    (docs : List (String × String)) (f c : String) (hmem : (f, c) ∈ docs)
    (hnd : (docs.map Prod.fst).Nodup) (hlen : MAX_CONTENT_LENGTH < c.length) :
    normalizeContent c = strTake c MAX_CONTENT_LENGTH
    ∧ (normalizeContent c).length = MAX_CONTENT_LENGTH
    ∧ (f, classOf (load_existing_records db) f (strTake c MAX_CONTENT_LENGTH))
        ∈ classesOf (run embed db docs).events
    ∧ upsertsFor f (run embed db docs).events
        = if classOf (load_existing_records db) f (strTake c MAX_CONTENT_LENGTH)
            = Class.unchanged then []
          else [Event.upsert (filename_to_id f) f (strTake c MAX_CONTENT_LENGTH)
            (embed (strTake c MAX_CONTENT_LENGTH))
            (compute_hash (strTake c MAX_CONTENT_LENGTH))] := by
  have hnorm : normalizeContent c = strTake c MAX_CONTENT_LENGTH := by
    unfold normalizeContent
    rw [if_pos hlen]
  have hlen' : MAX_CONTENT_LENGTH < c.data.length := hlen
  refine ⟨hnorm, ?_, ?_, ?_⟩
  · rw [hnorm]
    show (c.data.take MAX_CONTENT_LENGTH).length = MAX_CONTENT_LENGTH
    rw [List.length_take]
    omega
  · rw [mem_run_classes_iff embed db docs f c hmem hnd, hnorm]
  · rw [run_upsertsFor embed db docs f c hmem hnd, hnorm]

theorem C4_witness :
    (("a.md", String.mk (List.replicate 10001 'a'))
        ∈ [("a.md", String.mk (List.replicate 10001 'a'))])
    ∧ ((List.map Prod.fst [("a.md", String.mk (List.replicate 10001 'a'))]).Nodup)
    ∧ (MAX_CONTENT_LENGTH < (String.mk (List.replicate 10001 'a')).length)
    ∧ (normalizeContent (String.mk (List.replicate 10001 'a'))
        = strTake (String.mk (List.replicate 10001 'a')) MAX_CONTENT_LENGTH
      ∧ (normalizeContent (String.mk (List.replicate 10001 'a'))).length = MAX_CONTENT_LENGTH
      ∧ ("a.md", classOf (load_existing_records ([] : Db Nat)) "a.md"
            (strTake (String.mk (List.replicate 10001 'a')) MAX_CONTENT_LENGTH))
          ∈ classesOf (run (fun _ => (0 : Nat)) ([] : Db Nat)
              [("a.md", String.mk (List.replicate 10001 'a'))]).events
      ∧ upsertsFor "a.md" (run (fun _ => (0 : Nat)) ([] : Db Nat)
            [("a.md", String.mk (List.replicate 10001 'a'))]).events
          = if classOf (load_existing_records ([] : Db Nat)) "a.md"
                (strTake (String.mk (List.replicate 10001 'a')) MAX_CONTENT_LENGTH)
              = Class.unchanged then []
            else [Event.upsert (filename_to_id "a.md") "a.md"
              (strTake (String.mk (List.replicate 10001 'a')) MAX_CONTENT_LENGTH)
              ((fun _ => (0 : Nat)) (strTake (String.mk (List.replicate 10001 'a'))
                MAX_CONTENT_LENGTH))
              (compute_hash (strTake (String.mk (List.replicate 10001 'a'))
                MAX_CONTENT_LENGTH))]) :=
  ⟨List.mem_singleton.mpr rfl, by decide,
    by
      show MAX_CONTENT_LENGTH < (List.replicate 10001 'a').length
      rw [List.length_replicate]
      decide,
    C4_truncation (fun _ => (0 : Nat)) ([] : Db Nat)
      [("a.md", String.mk (List.replicate 10001 'a'))] "a.md"
      (String.mk (List.replicate 10001 'a'))
      (List.mem_singleton.mpr rfl) (by decide)
      (by
        show MAX_CONTENT_LENGTH < (List.replicate 10001 'a').length
        rw [List.length_replicate]
        decide)⟩

/-- C5: the embedding requests of a run are exactly one per document
classified New or Updated, carrying the normalized content (none for
Unchanged documents); each scanned filename receives exactly one upsert when
New or Updated and none when Unchanged; and in the trace each request is
immediately followed by the corresponding upsert. -/
theorem C5_embedding_policy {E : Type} (embed : String → E) (db : Db E)
    (docs : List (String × String)) (hne : docs ≠ []) (hnd : (docs.map Prod.fst).Nodup) :
    embedContents (run embed db docs).events
      = (docs.filter
          (fun d => !decide (classOf (load_existing_records db) d.1 (normalizeContent d.2)
            = Class.unchanged))).map (fun d => normalizeContent d.2)
    ∧ (∀ f c, (f, c) ∈ docs →
        upsertsFor f (run embed db docs).events
          = if classOf (load_existing_records db) f (normalizeContent c) = Class.unchanged
            then []
            else [Event.upsert (filename_to_id f) f (normalizeContent c)
              (embed (normalizeContent c)) (compute_hash (normalizeContent c))])
    ∧ (run embed db docs).events.filter isReqOrUpsertEvent
      = (docs.filter
          (fun d => !decide (classOf (load_existing_records db) d.1 (normalizeContent d.2)
            = Class.unchanged))).flatMap
          (fun d => [Event.embedReq (normalizeContent d.2),
            Event.upsert (filename_to_id d.1) d.1 (normalizeContent d.2)
              (embed (normalizeContent d.2)) (compute_hash (normalizeContent d.2))]) :=
  ⟨run_embedContents embed db docs hne,
    fun f c hmem => run_upsertsFor embed db docs f c hmem hnd,
    run_reqUpserts embed db docs hne⟩

theorem C5_witness :
    (([("a.md", "hi")] : List (String × String)) ≠ [])
    ∧ ((List.map Prod.fst [("a.md", "hi")]).Nodup)
    ∧ (embedContents (run (fun _ => (0 : Nat)) ([] : Db Nat) [("a.md", "hi")]).events
        = (List.filter
            (fun d => !decide (classOf (load_existing_records ([] : Db Nat)) d.1
              (normalizeContent d.2) = Class.unchanged)) [("a.md", "hi")]).map
            (fun d => normalizeContent d.2)
      ∧ (∀ f c, (f, c) ∈ ([("a.md", "hi")] : List (String × String)) →
          upsertsFor f (run (fun _ => (0 : Nat)) ([] : Db Nat) [("a.md", "hi")]).events
            = if classOf (load_existing_records ([] : Db Nat)) f (normalizeContent c)
                = Class.unchanged then []
              else [Event.upsert (filename_to_id f) f (normalizeContent c)
                ((fun _ => (0 : Nat)) (normalizeContent c)) (compute_hash (normalizeContent c))])
      ∧ (run (fun _ => (0 : Nat)) ([] : Db Nat) [("a.md", "hi")]).events.filter
            isReqOrUpsertEvent
          = (List.filter
              (fun d => !decide (classOf (load_existing_records ([] : Db Nat)) d.1
                (normalizeContent d.2) = Class.unchanged)) [("a.md", "hi")]).flatMap
              (fun d => [Event.embedReq (normalizeContent d.2),
                Event.upsert (filename_to_id d.1) d.1 (normalizeContent d.2)
                  ((fun _ => (0 : Nat)) (normalizeContent d.2))
                  (compute_hash (normalizeContent d.2))])) :=
  ⟨by decide, by decide,
    C5_embedding_policy (fun _ => (0 : Nat)) ([] : Db Nat) [("a.md", "hi")]
      (by decide) (by decide)⟩

/-- C6: when at least one scanned document exceeds the maximum length the run
exits with code 1, and still processes every document (one classification
each), issues every delete of the deleted set and every upsert of the
new/updated documents; when no document exceeds the maximum the exit code
is 0. -/
theorem C6_truncation_exit {E : Type} (embed : String → E) (db : Db E)
    (docs : List (String × String)) (hne : docs ≠ []) (hnd : (docs.map Prod.fst).Nodup) :
    ((∃ d ∈ docs, MAX_CONTENT_LENGTH < d.2.length) → (run embed db docs).exitCode = 1)
    ∧ ((∀ d ∈ docs, d.2.length ≤ MAX_CONTENT_LENGTH) → (run embed db docs).exitCode = 0)
    ∧ classesOf (run embed db docs).events
        = docs.map
            (fun d => (d.1, classOf (load_existing_records db) d.1 (normalizeContent d.2)))
    ∧ deleteKeys (run embed db docs).events = (deletedList db docs).map filename_to_id
    ∧ (∀ f c, (f, c) ∈ docs →
        upsertsFor f (run embed db docs).events
          = if classOf (load_existing_records db) f (normalizeContent c) = Class.unchanged
            then []
            else [Event.upsert (filename_to_id f) f (normalizeContent c)
              (embed (normalizeContent c)) (compute_hash (normalizeContent c))]) := by
  refine ⟨?_, ?_, run_classes embed db docs hne, run_deleteKeys embed db docs hne,
    fun f c hmem => run_upsertsFor embed db docs f c hmem hnd⟩
  · rintro ⟨d, hd, hl⟩
    rw [run_ne_nil_exitCode embed db docs hne, if_pos]
    exact List.any_eq_true.mpr ⟨d, hd, decide_eq_true hl⟩
  · intro hall
    rw [run_ne_nil_exitCode embed db docs hne, if_neg]
    intro hany
    obtain ⟨d, hd, hp⟩ := List.any_eq_true.mp hany
    rw [decide_eq_true_eq] at hp
    exact absurd hp (not_lt.mpr (hall d hd))

theorem C6_witness :
    (([("a.md", "hi")] : List (String × String)) ≠ [])
    ∧ ((List.map Prod.fst [("a.md", "hi")]).Nodup)
    ∧ (((∃ d ∈ ([("a.md", "hi")] : List (String × String)),
          MAX_CONTENT_LENGTH < d.2.length) →
          (run (fun _ => (0 : Nat)) ([] : Db Nat) [("a.md", "hi")]).exitCode = 1)
      ∧ ((∀ d ∈ ([("a.md", "hi")] : List (String × String)),
            d.2.length ≤ MAX_CONTENT_LENGTH) →
          (run (fun _ => (0 : Nat)) ([] : Db Nat) [("a.md", "hi")]).exitCode = 0)
      ∧ classesOf (run (fun _ => (0 : Nat)) ([] : Db Nat) [("a.md", "hi")]).events
          = List.map
              (fun d => (d.1, classOf (load_existing_records ([] : Db Nat)) d.1
                (normalizeContent d.2))) [("a.md", "hi")]
      ∧ deleteKeys (run (fun _ => (0 : Nat)) ([] : Db Nat) [("a.md", "hi")]).events
          = (deletedList ([] : Db Nat) [("a.md", "hi")]).map filename_to_id
      ∧ (∀ f c, (f, c) ∈ ([("a.md", "hi")] : List (String × String)) →
          upsertsFor f (run (fun _ => (0 : Nat)) ([] : Db Nat) [("a.md", "hi")]).events
            = if classOf (load_existing_records ([] : Db Nat)) f (normalizeContent c)
                = Class.unchanged then []
              else [Event.upsert (filename_to_id f) f (normalizeContent c)
                ((fun _ => (0 : Nat)) (normalizeContent c))
                (compute_hash (normalizeContent c))])) :=
  ⟨by decide, by decide,
    C6_truncation_exit (fun _ => (0 : Nat)) ([] : Db Nat) [("a.md", "hi")]
      (by decide) (by decide)⟩

/-- C7 fails as stated: in a run over two new documents the upsert of the
first document is issued before the second document is classified, so a store
mutation begins before all classification is finalized. -/
theorem C7_counterexample :
    anyMutationBeforeClassify
      (run (fun _ => (0 : Nat)) ([] : Db Nat) [("a.md", "x"), ("b.md", "y")]).events = true := by
  rfl

/-- C7 (amended): classification never observes any mutation of the same run
— every document's classification is the pure function `classOf` of the
snapshot loaded at the start — and every delete is issued only after the
whole classification loop; however, upserts of earlier documents are issued
before later documents are classified. -/
theorem C7_snapshot_classification {E : Type} (embed : String → E) (db : Db E)
    (docs : List (String × String)) :
    classesOf (run embed db docs).events
      = docs.map
          (fun d => (d.1, classOf (load_existing_records db) d.1 (normalizeContent d.2)))
    ∧ (run embed db docs).events
      = (run embed db docs).events.filter (fun e => !isDeleteEvent e)
        ++ (run embed db docs).events.filter isDeleteEvent := by
  constructor
  · rcases docs with _ | ⟨d, ds⟩
    · rw [run_nil]
      rfl
    · exact run_classes embed db _ (by simp)
  · exact run_deletes_last embed db docs

theorem find?_map_replace_same {E : Type} (db : Db E) (k : String) (r : Record E) :
    (db.map (fun p => if p.1 = k then (k, r) else p)).find? (fun p => p.1 = k)
      = (db.find? (fun p => p.1 = k)).map (fun _ => (k, r)) := by
  induction db with
  | nil => rfl
  | cons p db ih =>
    by_cases hp : p.1 = k
    · rw [List.map_cons, if_pos hp, List.find?_cons_of_pos _ (by simp),
        List.find?_cons_of_pos _ (by simp [hp])]
      rfl
    · rw [List.map_cons, if_neg hp, List.find?_cons_of_neg _ (by simp [hp]),
        List.find?_cons_of_neg _ (by simp [hp])]
      exact ih

theorem find?_map_replace_other {E : Type} (db : Db E) (k : String) (r : Record E)
    (k' : String) (hne : k' ≠ k) :
    (db.map (fun p => if p.1 = k then (k, r) else p)).find? (fun p => p.1 = k')
      = db.find? (fun p => p.1 = k') := by
  induction db with
  | nil => rfl
  | cons p db ih =>
    by_cases hp : p.1 = k
    · rw [List.map_cons, if_pos hp, List.find?_cons_of_neg _ (by simp [Ne.symm hne]),
        List.find?_cons_of_neg _ (by simp [hp, Ne.symm hne])]
      exact ih
    · rw [List.map_cons, if_neg hp]
      by_cases hq : p.1 = k'
      · rw [List.find?_cons_of_pos _ (by simp [hq]), List.find?_cons_of_pos _ (by simp [hq])]
      · rw [List.find?_cons_of_neg _ (by simp [hq]), List.find?_cons_of_neg _ (by simp [hq])]
        exact ih

/-- `UPSERT` semantics on the modelled store: the written key now holds the
new record and every other key is untouched. -/
theorem dbGet_dbUpsert {E : Type} (db : Db E) (k : String) (r : Record E) (k' : String) :
    dbGet (dbUpsert db k r) k' = if k' = k then some r else dbGet db k' := by
  unfold dbGet dbUpsert
  by_cases hany : db.any (fun p => p.1 = k)
  · rw [if_pos hany]
    by_cases h : k' = k
    · subst h
      rw [if_pos rfl, find?_map_replace_same]
      have hs : (db.find? (fun p => p.1 = k')).isSome := by
        rw [List.find?_isSome]
        exact List.any_eq_true.mp hany
      obtain ⟨q, hq⟩ := Option.isSome_iff_exists.mp hs
      rw [hq]
      rfl
    · rw [if_neg h, find?_map_replace_other db k r k' h]
  · rw [if_neg hany]
    by_cases h : k' = k
    · subst h
      rw [if_pos rfl, List.find?_append]
      have hnone : db.find? (fun p => p.1 = k') = none :=
        List.find?_eq_none.mpr (fun x hx hpx =>
          hany (List.any_eq_true.mpr ⟨x, hx, hpx⟩))
      rw [hnone, List.find?_cons_of_pos _ (by simp)]
      rfl
    · rw [if_neg h, List.find?_append]
      have hsing : ([(k, r)].find? (fun p => p.1 = k')) = none := by
        rw [List.find?_cons_of_neg _ (by simp [Ne.symm h])]
        rfl
      rw [hsing, Option.or_none]

/-- `DELETE` semantics on the modelled store: the deleted key is gone and
every other key is untouched. -/
theorem dbGet_dbDelete {E : Type} (db : Db E) (k k' : String) :
    dbGet (dbDelete db k) k' = if k' = k then none else dbGet db k' := by
  induction db with
  | nil =>
    by_cases h : k' = k <;> simp [dbDelete, dbGet, h]
  | cons p db ih =>
    have hfold : List.filter (fun q => !(q.1 = k : Bool)) db = dbDelete db k := rfl
    unfold dbGet at ih ⊢
    rw [show dbDelete (p :: db) k = List.filter (fun q => !(q.1 = k : Bool)) (p :: db) from rfl,
      List.filter_cons, hfold]
    by_cases hp : p.1 = k
    · rw [if_neg (by simp [hp]), ih]
      by_cases h : k' = k
      · rw [if_pos h, if_pos h]
      · rw [if_neg h, if_neg h, List.find?_cons_of_neg _ (by simp [hp, Ne.symm h])]
    · rw [if_pos (by simp [hp])]
      by_cases hq : p.1 = k'
      · have h' : ¬ k' = k := fun hh => hp (by rw [hq, hh])
        rw [List.find?_cons_of_pos _ (by simp [hq]), if_neg h',
          List.find?_cons_of_pos _ (by simp [hq])]
      · rw [List.find?_cons_of_neg _ (by simp [hq]), ih]
        by_cases h : k' = k
        · rw [if_pos h, if_pos h]
        · rw [if_neg h, if_neg h, List.find?_cons_of_neg _ (by simp [hq])]

/-- C8: the delete path and the upsert path address the store through the
same derived key, `filename_to_id` of the identity — a pure function of the
identity alone: `upsert_record` writes exactly under that key, `delete_record`
clears exactly that key, and deleting after upserting the same identity
removes the written record. -/
theorem C8_same_key_both_paths {E : Type} (db db' : Db E) (f content : String) (emb : E)
    (h : String) :
    upsert_record db f content emb h = dbUpsert db (filename_to_id f) ⟨f, content, emb, h⟩
    ∧ delete_record db' f = dbDelete db' (filename_to_id f)
    ∧ dbGet (upsert_record db f content emb h) (filename_to_id f) = some ⟨f, content, emb, h⟩
    ∧ dbGet (delete_record (upsert_record db f content emb h) f) (filename_to_id f) = none := by
  refine ⟨rfl, rfl, ?_, ?_⟩
  · rw [show upsert_record db f content emb h
        = dbUpsert db (filename_to_id f) ⟨f, content, emb, h⟩ from rfl,
      dbGet_dbUpsert, if_pos rfl]
  · rw [show delete_record (upsert_record db f content emb h) f
        = dbDelete (upsert_record db f content emb h) (filename_to_id f) from rfl,
      dbGet_dbDelete, if_pos rfl]

theorem KeyInj_mono {l l' : List String} (h : KeyInj l) (hsub : l' ⊆ l) : KeyInj l' :=
  fun a ha b hb hab => h a (hsub ha) b (hsub hb) hab

theorem byFilename_eq_none {E : Type} (db : Db E) (g : String) :
    byFilename db g = none ↔ g ∉ filenamesOf db := by
  unfold byFilename filenamesOf
  constructor
  · intro h hmem
    obtain ⟨p, hp, hpf⟩ := List.mem_map.mp hmem
    have := List.find?_eq_none.mp (by
      rcases hfind : (db.find? (fun p => p.2.filename = g)) with _ | q
      · rfl
      · rw [hfind] at h
        cases h) p hp
    simp [hpf] at this
  · intro h
    have : db.find? (fun p => p.2.filename = g) = none :=
      List.find?_eq_none.mpr (fun p hp hpf => by
        refine h (List.mem_map.mpr ⟨p, hp, ?_⟩)
        simpa using hpf)
    rw [this]
    rfl

theorem byFilename_map_replace {E : Type} (db : Db E) (k : String) (rec : Record E)
    (hiff : ∀ p ∈ db, (p.1 = k ↔ p.2.filename = rec.filename)) :
    (byFilename (db.map (fun p => if p.1 = k then (k, rec) else p)) rec.filename
      = (db.find? (fun p => p.2.filename = rec.filename)).map (fun _ => rec))
    ∧ (∀ g, g ≠ rec.filename →
        byFilename (db.map (fun p => if p.1 = k then (k, rec) else p)) g = byFilename db g)
    ∧ filenamesOf (db.map (fun p => if p.1 = k then (k, rec) else p)) = filenamesOf db := by
  induction db with
  | nil => exact ⟨rfl, fun g _ => rfl, rfl⟩
  | cons p db ih =>
    have hiffp := hiff p (List.mem_cons_self p db)
    have ihx := ih (fun q hq => hiff q (List.mem_cons_of_mem p hq))
    by_cases hp : p.1 = k
    · have hpf : p.2.filename = rec.filename := hiffp.mp hp
      refine ⟨?_, ?_, ?_⟩
      · rw [List.map_cons, if_pos hp]
        unfold byFilename
        rw [List.find?_cons_of_pos _ (by simp), List.find?_cons_of_pos _ (by simp [hpf])]
        rfl
      · intro g hg
        rw [List.map_cons, if_pos hp]
        unfold byFilename
        rw [List.find?_cons_of_neg _ (by simp [Ne.symm hg]),
          List.find?_cons_of_neg _ (by simp [hpf, Ne.symm hg])]
        exact ihx.2.1 g hg
      · rw [List.map_cons, if_pos hp]
        unfold filenamesOf
        rw [List.map_cons, List.map_cons]
        unfold filenamesOf at ihx
        rw [ihx.2.2, hpf]
    · have hpf : p.2.filename ≠ rec.filename := fun h => hp (hiffp.mpr h)
      refine ⟨?_, ?_, ?_⟩
      · rw [List.map_cons, if_neg hp]
        unfold byFilename
        rw [List.find?_cons_of_neg _ (by simp [hpf]), List.find?_cons_of_neg _ (by simp [hpf])]
        exact ihx.1
      · intro g hg
        rw [List.map_cons, if_neg hp]
        by_cases hq : p.2.filename = g
        · unfold byFilename
          rw [List.find?_cons_of_pos _ (by simp [hq]), List.find?_cons_of_pos _ (by simp [hq])]
        · unfold byFilename
          rw [List.find?_cons_of_neg _ (by simp [hq]), List.find?_cons_of_neg _ (by simp [hq])]
          exact ihx.2.1 g hg
      · rw [List.map_cons, if_neg hp]
        unfold filenamesOf
        rw [List.map_cons, List.map_cons]
        unfold filenamesOf at ihx
        rw [ihx.2.2]

theorem byFilename_filter_out {E : Type} (db : Db E) (k : String) (f : String)
    (hiff : ∀ p ∈ db, (p.1 = k ↔ p.2.filename = f)) :
    (byFilename (db.filter (fun q => !(q.1 = k : Bool))) f = none)
    ∧ (∀ g, g ≠ f → byFilename (db.filter (fun q => !(q.1 = k : Bool))) g = byFilename db g)
    ∧ filenamesOf (db.filter (fun q => !(q.1 = k : Bool)))
        = (filenamesOf db).filter (fun x => !(x = f : Bool)) := by
  induction db with
  | nil => exact ⟨rfl, fun g _ => rfl, rfl⟩
  | cons p db ih =>
    have hiffp := hiff p (List.mem_cons_self p db)
    have ihx := ih (fun q hq => hiff q (List.mem_cons_of_mem p hq))
    by_cases hp : p.1 = k
    · have hpf : p.2.filename = f := hiffp.mp hp
      refine ⟨?_, ?_, ?_⟩
      · rw [List.filter_cons, if_neg (by simp [hp])]
        exact ihx.1
      · intro g hg
        rw [List.filter_cons, if_neg (by simp [hp])]
        unfold byFilename
        rw [List.find?_cons_of_neg _ (by simp [hpf, Ne.symm hg])]
        exact ihx.2.1 g hg
      · rw [List.filter_cons, if_neg (by simp [hp])]
        unfold filenamesOf
        rw [List.map_cons, List.filter_cons, if_neg (by simp [hpf])]
        exact ihx.2.2
    · have hpf : p.2.filename ≠ f := fun h => hp (hiffp.mpr h)
      refine ⟨?_, ?_, ?_⟩
      · rw [List.filter_cons, if_pos (by simp [hp])]
        unfold byFilename
        rw [List.find?_cons_of_neg _ (by simp [hpf])]
        exact ihx.1
      · intro g hg
        rw [List.filter_cons, if_pos (by simp [hp])]
        by_cases hq : p.2.filename = g
        · unfold byFilename
          rw [List.find?_cons_of_pos _ (by simp [hq]), List.find?_cons_of_pos _ (by simp [hq])]
        · unfold byFilename
          rw [List.find?_cons_of_neg _ (by simp [hq]), List.find?_cons_of_neg _ (by simp [hq])]
          exact ihx.2.1 g hg
      · rw [List.filter_cons, if_pos (by simp [hp])]
        unfold filenamesOf
        rw [List.map_cons, List.map_cons, List.filter_cons, if_pos (by simp [hpf])]
        unfold filenamesOf at ihx
        rw [ihx.2.2]

theorem key_iff_filename {E : Type} (db : Db E) (f : String)
    (hwf : WFdb db) (hinj : KeyInj (f :: filenamesOf db)) :
    ∀ p ∈ db, (p.1 = filename_to_id f ↔ p.2.filename = f) := by
  intro p hp
  constructor
  · intro h1
    refine hinj p.2.filename ?_ f (List.mem_cons_self _ _) ?_
    · exact List.mem_cons_of_mem _ (List.mem_map_of_mem _ hp)
    · rw [← hwf.1 p hp, h1]
  · intro h2
    rw [hwf.1 p hp, h2]

/-- Effect of `upsert_record` on a well-formed store: the identity now maps
to the fresh record, every other identity is untouched, and well-formedness
is preserved. -/
theorem upsert_record_spec {E : Type} (db : Db E) (f content : String) (emb : E) (h : String)
    (hwf : WFdb db) (hinj : KeyInj (f :: filenamesOf db)) :
    WFdb (upsert_record db f content emb h)
    ∧ filenamesOf (upsert_record db f content emb h) ⊆ f :: filenamesOf db
    ∧ byFilename (upsert_record db f content emb h) f = some ⟨f, content, emb, h⟩
    ∧ ∀ g, g ≠ f → byFilename (upsert_record db f content emb h) g = byFilename db g := by
  have hiff := key_iff_filename db f hwf hinj
  rw [show upsert_record db f content emb h
      = dbUpsert db (filename_to_id f) ⟨f, content, emb, h⟩ from rfl]
  unfold dbUpsert
  by_cases hany : db.any (fun p => p.1 = filename_to_id f)
  · rw [if_pos hany]
    have hmr := byFilename_map_replace db (filename_to_id f) ⟨f, content, emb, h⟩ hiff
    refine ⟨⟨?_, ?_⟩, ?_, ?_, ?_⟩
    · intro q hq
      obtain ⟨p, hp, hpq⟩ := List.mem_map.mp hq
      by_cases hpk : p.1 = filename_to_id f
      · rw [← hpq, if_pos hpk]
      · rw [← hpq, if_neg hpk]
        exact hwf.1 p hp
    · rw [show filenamesOf (db.map (fun p =>
          if p.1 = filename_to_id f then (filename_to_id f, ⟨f, content, emb, h⟩) else p))
          = filenamesOf db from hmr.2.2]
      exact hwf.2
    · intro x hx
      rw [show filenamesOf (db.map (fun p =>
          if p.1 = filename_to_id f then (filename_to_id f, ⟨f, content, emb, h⟩) else p))
          = filenamesOf db from hmr.2.2] at hx
      exact List.mem_cons_of_mem _ hx
    · rw [show byFilename (db.map (fun p =>
          if p.1 = filename_to_id f then (filename_to_id f, ⟨f, content, emb, h⟩) else p)) f
          = (db.find? (fun p => p.2.filename = f)).map (fun _ => ⟨f, content, emb, h⟩)
          from hmr.1]
      have hs : (db.find? (fun p => p.2.filename = f)).isSome := by
        rw [List.find?_isSome]
        obtain ⟨p, hp, hpk⟩ := List.any_eq_true.mp hany
        exact ⟨p, hp, by
          simp only [decide_eq_true_eq]
          exact (hiff p hp).mp (by simpa using hpk)⟩
      obtain ⟨q, hq⟩ := Option.isSome_iff_exists.mp hs
      rw [hq]
      rfl
    · intro g hg
      exact hmr.2.1 g hg
  · rw [if_neg hany]
    have hfn : f ∉ filenamesOf db := by
      intro hmem
      obtain ⟨p, hp, hpf⟩ := List.mem_map.mp hmem
      exact hany (List.any_eq_true.mpr ⟨p, hp, by simp [hwf.1 p hp, hpf]⟩)
    refine ⟨⟨?_, ?_⟩, ?_, ?_, ?_⟩
    · intro q hq
      rcases List.mem_append.mp hq with h1 | h1
      · exact hwf.1 q h1
      · rw [List.mem_singleton.mp h1]
    · unfold filenamesOf
      rw [List.map_append, List.nodup_append]
      refine ⟨hwf.2, by simp, ?_⟩
      intro x hx hmem
      simp only [List.map_cons, List.map_nil, List.mem_singleton] at hmem
      exact hfn (hmem ▸ hx)
    · unfold filenamesOf
      rw [List.map_append]
      intro x hx
      rcases List.mem_append.mp hx with h1 | h1
      · exact List.mem_cons_of_mem _ h1
      · simp only [List.map_cons, List.map_nil, List.mem_singleton] at h1
        rw [h1]
        exact List.mem_cons_self _ _
    · unfold byFilename
      rw [List.find?_append]
      have hnone : db.find? (fun p => p.2.filename = f) = none :=
        List.find?_eq_none.mpr (fun p hp hpf =>
          hfn (List.mem_map.mpr ⟨p, hp, by simpa using hpf⟩))
      rw [hnone, List.find?_cons_of_pos _ (by simp)]
      rfl
    · intro g hg
      unfold byFilename
      rw [List.find?_append]
      have hsing : ([(filename_to_id f, (⟨f, content, emb, h⟩ : Record E))].find?
          (fun p => p.2.filename = g)) = none := by
        rw [List.find?_cons_of_neg _ (by simp [Ne.symm hg])]
        rfl
      rw [hsing, Option.or_none]

/-- Effect of `delete_record` on a well-formed store: the identity is gone,
every other identity is untouched, and well-formedness is preserved. -/
theorem delete_record_spec {E : Type} (db : Db E) (f : String)
    (hwf : WFdb db) (hinj : KeyInj (f :: filenamesOf db)) :
    WFdb (delete_record db f)
    ∧ filenamesOf (delete_record db f) ⊆ filenamesOf db
    ∧ byFilename (delete_record db f) f = none
    ∧ ∀ g, g ≠ f → byFilename (delete_record db f) g = byFilename db g := by
  have hiff := key_iff_filename db f hwf hinj
  rw [show delete_record db f
      = db.filter (fun q => !(q.1 = filename_to_id f : Bool)) from rfl]
  have hfo := byFilename_filter_out db (filename_to_id f) f hiff
  refine ⟨⟨?_, ?_⟩, ?_, hfo.1, hfo.2.1⟩
  · intro q hq
    exact hwf.1 q (List.mem_of_mem_filter hq)
  · rw [hfo.2.2]
    exact (List.filter_sublist _).nodup hwf.2
  · intro x hx
    rw [hfo.2.2] at hx
    exact (List.filter_sublist _).subset hx

theorem dictOfList_eq_self {α : Type} (l : List (String × α))
    (hnd : (l.map Prod.fst).Nodup) : dictOfList l = l := by
  suffices h : ∀ (l acc : List (String × α)), ((acc ++ l).map Prod.fst).Nodup →
      l.foldl (fun m p => dictInsert m p.1 p.2) acc = acc ++ l by
    have := h l [] (by simpa using hnd)
    simpa using this
  intro l
  induction l with
  | nil =>
    intro acc _
    simp [dictOfList]
  | cons a l ih =>
    intro acc hacc
    rw [List.foldl_cons]
    have hka : a.1 ∉ acc.map Prod.fst := by
      rw [List.map_append, List.nodup_append] at hacc
      intro hmem
      exact hacc.2.2 hmem (by simp)
    have hins : dictInsert acc a.1 a.2 = acc ++ [a] := by
      unfold dictInsert
      rw [if_neg]
      intro hany
      obtain ⟨p, hp, hpk⟩ := List.any_eq_true.mp hany
      exact hka (List.mem_map.mpr ⟨p, hp, by simpa using hpk⟩)
    rw [hins, ih (acc ++ [a]) (by
      rw [List.append_assoc]
      simpa using hacc), List.append_assoc]
    rfl

theorem load_eq_of_WF {E : Type} (db : Db E) (hwf : WFdb db) :
    load_existing_records db = db.map (fun p => (p.2.filename, p.2)) := by
  unfold load_existing_records
  rw [show dictOfList (db.map (fun p => (p.2.filename, p.2)))
      = (db.map (fun p => (p.2.filename, p.2))).foldl (fun m p => dictInsert m p.1 p.2) []
      from rfl]
  have := dictOfList_eq_self (db.map (fun p => (p.2.filename, p.2))) (by
    rw [List.map_map]
    exact hwf.2)
  exact this

theorem find?_pair_map {E : Type} (db : Db E) (f : String) :
    ((db.map (fun p => (p.2.filename, p.2))).find? (fun q => q.1 = f))
      = (db.find? (fun p => p.2.filename = f)).map (fun p => (p.2.filename, p.2)) := by
  induction db with
  | nil => rfl
  | cons p db ih =>
    by_cases hq : p.2.filename = f
    · rw [List.map_cons, List.find?_cons_of_pos _ (by simp [hq]),
        List.find?_cons_of_pos _ (by simp [hq])]
      rfl
    · rw [List.map_cons, List.find?_cons_of_neg _ (by simp [hq]),
        List.find?_cons_of_neg _ (by simp [hq])]
      exact ih

/-- On a well-formed store the loaded snapshot looks up records by stored
filename. -/
theorem dictLookup_load {E : Type} (db : Db E) (hwf : WFdb db) (f : String) :
    dictLookup (load_existing_records db) f = byFilename db f := by
  rw [load_eq_of_WF db hwf]
  unfold dictLookup byFilename
  rw [find?_pair_map]
  rcases hfind : db.find? (fun p => p.2.filename = f) with _ | q <;> rw [hfind] <;> rfl

theorem load_keys {E : Type} (db : Db E) (hwf : WFdb db) :
    (load_existing_records db).map Prod.fst = filenamesOf db := by
  rw [load_eq_of_WF db hwf, List.map_map]
  rfl

theorem upsertStep_spec {E : Type} (embed : String → E) (snap : List (String × Record E))
    (db : Db E) (d : String × String) (hwf : WFdb db) (hinj : KeyInj (d.1 :: filenamesOf db)) :
    WFdb (upsertStep embed snap db d)
    ∧ filenamesOf (upsertStep embed snap db d) ⊆ d.1 :: filenamesOf db
    ∧ byFilename (upsertStep embed snap db d) d.1
        = (if classOf snap d.1 (normalizeContent d.2) = Class.unchanged
           then byFilename db d.1
           else some ⟨d.1, normalizeContent d.2, embed (normalizeContent d.2),
             compute_hash (normalizeContent d.2)⟩)
    ∧ ∀ g, g ≠ d.1 → byFilename (upsertStep embed snap db d) g = byFilename db g := by
  unfold upsertStep
  by_cases hc : classOf snap d.1 (normalizeContent d.2) = Class.unchanged
  · simp only [if_pos hc]
    exact ⟨hwf, fun x hx => List.mem_cons_of_mem _ hx, trivial, fun _ _ => trivial⟩
  · simp only [if_neg hc]
    exact upsert_record_spec db d.1 (normalizeContent d.2) (embed (normalizeContent d.2))
      (compute_hash (normalizeContent d.2)) hwf hinj

/-- Effect of the whole scan loop on the store: a document's identity holds
the fresh record when it was new or updated, the prior record otherwise, and
unscanned identities are untouched. -/
theorem foldl_upsertStep_spec {E : Type} (embed : String → E)
    (snap : List (String × Record E)) (docs : List (String × String)) (db : Db E)
    (hwf : WFdb db) (hinj : KeyInj (docs.map Prod.fst ++ filenamesOf db))
    (hnd : (docs.map Prod.fst).Nodup) :
    WFdb (docs.foldl (upsertStep embed snap) db)
    ∧ filenamesOf (docs.foldl (upsertStep embed snap) db) ⊆ docs.map Prod.fst ++ filenamesOf db
    ∧ (∀ g, docs.find? (fun d => d.1 = g) = none →
        byFilename (docs.foldl (upsertStep embed snap) db) g = byFilename db g)
    ∧ (∀ g d, docs.find? (fun d => d.1 = g) = some d →
        byFilename (docs.foldl (upsertStep embed snap) db) g
          = if classOf snap g (normalizeContent d.2) = Class.unchanged
            then byFilename db g
            else some ⟨g, normalizeContent d.2, embed (normalizeContent d.2),
              compute_hash (normalizeContent d.2)⟩) := by
  induction docs generalizing db with
  | nil =>
    refine ⟨hwf, ?_, fun g _ => rfl, fun g d hfind => ?_⟩
    · simp
    · cases hfind
  | cons d ds ih =>
    simp only [List.map_cons, List.nodup_cons] at hnd
    have hinjd : KeyInj (d.1 :: filenamesOf db) := KeyInj_mono hinj (by
      intro x hx
      rcases List.mem_cons.mp hx with h1 | h1
      · exact List.mem_append.mpr (Or.inl (by simp [h1]))
      · exact List.mem_append.mpr (Or.inr h1))
    have hstep := upsertStep_spec embed snap db d hwf hinjd
    have hinj2 : KeyInj (ds.map Prod.fst ++ filenamesOf (upsertStep embed snap db d)) :=
      KeyInj_mono hinj (by
        intro x hx
        rcases List.mem_append.mp hx with h1 | h1
        · exact List.mem_append.mpr (Or.inl (by simp [h1]))
        · rcases List.mem_cons.mp (hstep.2.1 h1) with h2 | h2
          · exact List.mem_append.mpr (Or.inl (by simp [h2]))
          · exact List.mem_append.mpr (Or.inr h2))
    have ihx := ih (upsertStep embed snap db d) hstep.1 hinj2 hnd.2
    refine ⟨ihx.1, ?_, ?_, ?_⟩
    · intro x hx
      rcases List.mem_append.mp (ihx.2.1 hx) with h1 | h1
      · exact List.mem_append.mpr (Or.inl (List.mem_cons_of_mem _ h1))
      · rcases List.mem_cons.mp (hstep.2.1 h1) with h2 | h2
        · exact List.mem_append.mpr (Or.inl (by simp [h2]))
        · exact List.mem_append.mpr (Or.inr h2)
    · intro g hfind
      have hd1 : ¬ (d.1 = g) := by
        intro hEq
        rw [List.find?_cons_of_pos _ (by simp [hEq])] at hfind
        cases hfind
      rw [List.find?_cons_of_neg _ (by simp [hd1])] at hfind
      rw [List.foldl_cons, ihx.2.2.1 g hfind]
      exact hstep.2.2.2 g (fun h => hd1 h.symm)
    · intro g dd hfind
      by_cases hd1 : d.1 = g
      · rw [List.find?_cons_of_pos _ (by simp [hd1])] at hfind
        injection hfind with hfind
        subst hfind
        have hnotds : ds.find? (fun x => x.1 = g) = none :=
          List.find?_eq_none.mpr (fun x hx hpx => by
            rw [decide_eq_true_eq] at hpx
            exact hnd.1 (by
              rw [hd1, ← hpx]
              exact List.mem_map_of_mem Prod.fst hx))
        rw [List.foldl_cons, ihx.2.2.1 g hnotds,
          show byFilename (upsertStep embed snap db d) g
            = byFilename (upsertStep embed snap db d) d.1 from by rw [hd1],
          hstep.2.2.1, hd1]
      · rw [List.find?_cons_of_neg _ (by simp [hd1])] at hfind
        rw [List.foldl_cons, ihx.2.2.2 g dd hfind]
        by_cases hc : classOf snap g (normalizeContent dd.2) = Class.unchanged
        · rw [if_pos hc, if_pos hc]
          exact hstep.2.2.2 g (fun h => hd1 h.symm)
        · rw [if_neg hc, if_neg hc]

/-- Effect of the delete loop on the store: the listed identities are gone,
the rest are untouched. -/
theorem foldl_delete_spec {E : Type} (l : List String) (db : Db E)
    (hwf : WFdb db) (hinj : KeyInj (l ++ filenamesOf db)) :
    WFdb (l.foldl delete_record db)
    ∧ filenamesOf (l.foldl delete_record db) ⊆ filenamesOf db
    ∧ ∀ g, byFilename (l.foldl delete_record db) g
        = if g ∈ l then none else byFilename db g := by
  induction l generalizing db with
  | nil =>
    refine ⟨hwf, fun x hx => hx, fun g => ?_⟩
    rw [if_neg (List.not_mem_nil g)]
    rfl
  | cons f l ih =>
    have hinjf : KeyInj (f :: filenamesOf db) := KeyInj_mono hinj (by
      intro x hx
      rcases List.mem_cons.mp hx with h1 | h1
      · exact List.mem_append.mpr (Or.inl (by simp [h1]))
      · exact List.mem_append.mpr (Or.inr h1))
    have hstep := delete_record_spec db f hwf hinjf
    have hinj2 : KeyInj (l ++ filenamesOf (delete_record db f)) :=
      KeyInj_mono hinj (by
        intro x hx
        rcases List.mem_append.mp hx with h1 | h1
        · exact List.mem_append.mpr (Or.inl (List.mem_cons_of_mem _ h1))
        · exact List.mem_append.mpr (Or.inr (hstep.2.1 h1)))
    have ihx := ih (delete_record db f) hstep.1 hinj2
    refine ⟨ihx.1, fun x hx => hstep.2.1 (ihx.2.1 hx), fun g => ?_⟩
    rw [List.foldl_cons, ihx.2.2 g]
    by_cases hgl : g ∈ l
    · rw [if_pos hgl, if_pos (List.mem_cons_of_mem _ hgl)]
    · rw [if_neg hgl]
      by_cases hgf : g = f
      · rw [if_pos (by rw [hgf]; exact List.mem_cons_self _ _), hgf]
        exact hstep.2.2.1
      · rw [if_neg (by
          intro hmem
          rcases List.mem_cons.mp hmem with h1 | h1
          · exact hgf h1
          · exact hgl h1)]
        exact hstep.2.2.2 g hgf

theorem foldl_upsertStep_id {E : Type} (embed : String → E)
    (snap : List (String × Record E)) (docs : List (String × String)) (db : Db E)
    (hall : ∀ d ∈ docs, classOf snap d.1 (normalizeContent d.2) = Class.unchanged) :
    docs.foldl (upsertStep embed snap) db = db := by
  induction docs generalizing db with
  | nil => rfl
  | cons d ds ih =>
    rw [List.foldl_cons, show upsertStep embed snap db d = db from by
      unfold upsertStep
      rw [if_pos (hall d (List.mem_cons_self d ds))]]
    exact ih db (fun x hx => hall x (List.mem_cons_of_mem d hx))

theorem find?_fst_of_mem {docs : List (String × String)} (f c : String)
    (hmem : (f, c) ∈ docs) (hnd : (docs.map Prod.fst).Nodup) :
    docs.find? (fun d => d.1 = f) = some (f, c) := by
  induction docs with
  | nil => cases hmem
  | cons d ds ih =>
    simp only [List.map_cons, List.nodup_cons] at hnd
    by_cases hd : d.1 = f
    · rw [List.find?_cons_of_pos _ (by simp [hd])]
      rcases List.mem_cons.mp hmem with h1 | h1
      · rw [← h1]
      · exact absurd (List.mem_map_of_mem Prod.fst h1)
          (fun hmm => hnd.1 (by rw [hd]; exact hmm))
    · rw [List.find?_cons_of_neg _ (by simp [hd])]
      rcases List.mem_cons.mp hmem with h1 | h1
      · exact absurd (congrArg Prod.fst h1.symm) hd
      · exact ih h1 hnd.2

/-- C9: running the pipeline twice with the same scan and no change in
between yields, on the second run, zero New, zero Updated and zero Deleted
classifications — every document Unchanged — no embedding request, no store
mutation, and a store identical to the one after the first run. -/
theorem C9_idempotent {E : Type} (embed : String → E) (db : Db E)
    (docs : List (String × String)) (hnd : (docs.map Prod.fst).Nodup) (hwf : WFdb db)
    (hinj : KeyInj (docs.map Prod.fst ++ filenamesOf db)) :
    (run embed (run embed db docs).db docs).stats = ⟨0, 0, docs.length⟩
    ∧ (run embed (run embed db docs).db docs).deleted_count = 0
    ∧ classesOf (run embed (run embed db docs).db docs).events
        = docs.map (fun d => (d.1, Class.unchanged))
    ∧ embedContents (run embed (run embed db docs).db docs).events = []
    ∧ (run embed (run embed db docs).db docs).events.filter isMutationEvent = []
    ∧ (run embed (run embed db docs).db docs).db = (run embed db docs).db := by
  by_cases hne0 : docs = []
  · subst hne0
    simp [run_nil, classesOf, embedContents]
  · have hne : docs ≠ [] := hne0
    have hsnap := load_keys db hwf
    have hdb1 : (run embed db docs).db
        = (deletedList db docs).foldl delete_record
            (docs.foldl (upsertStep embed (load_existing_records db)) db) :=
      run_ne_nil_db embed db docs hne
    have hU := foldl_upsertStep_spec embed (load_existing_records db) docs db hwf hinj hnd
    have hdelchar : deletedList db docs
        = (filenamesOf db).filter (fun g => !((docs.map Prod.fst).contains g)) := by
      unfold deletedList
      rw [hsnap]
    have hinjD : KeyInj (deletedList db docs
        ++ filenamesOf (docs.foldl (upsertStep embed (load_existing_records db)) db)) :=
      KeyInj_mono hinj (by
        intro x hx
        rcases List.mem_append.mp hx with h1 | h1
        · rw [hdelchar] at h1
          exact List.mem_append.mpr (Or.inr (List.mem_of_mem_filter h1))
        · exact hU.2.1 h1)
    have hD := foldl_delete_spec (deletedList db docs)
      (docs.foldl (upsertStep embed (load_existing_records db)) db) hU.1 hinjD
    have hdoc : ∀ f c, (f, c) ∈ docs →
        ∃ r, byFilename (run embed db docs).db f = some r
          ∧ r.hash = compute_hash (normalizeContent c) := by
      intro f c hm
      have hfind := find?_fst_of_mem f c hm hnd
      have hfs : f ∈ docs.map Prod.fst := List.mem_map_of_mem Prod.fst hm
      have hnotdel : f ∉ deletedList db docs := by
        rw [hdelchar]
        intro hdel
        have hcf := (List.mem_filter.mp hdel).2
        have hct : (docs.map Prod.fst).contains f = true := by simp [hfs]
        rw [hct] at hcf
        simp at hcf
      rw [hdb1, hD.2.2 f, if_neg hnotdel]
      by_cases hc : classOf (load_existing_records db) f (normalizeContent c)
          = Class.unchanged
      · rw [hU.2.2.2 f (f, c) hfind, if_pos hc]
        obtain ⟨e, he, hh⟩ :=
          (classOf_eq_unchanged_iff (load_existing_records db) f (normalizeContent c)).mp hc
        rw [dictLookup_load db hwf] at he
        exact ⟨e, he, hh⟩
      · rw [hU.2.2.2 f (f, c) hfind, if_neg hc]
        exact ⟨_, rfl, rfl⟩
    have hsub : ∀ g ∈ filenamesOf (run embed db docs).db, g ∈ docs.map Prod.fst := by
      intro g hg
      by_contra hgn
      have hfind : docs.find? (fun d => d.1 = g) = none :=
        List.find?_eq_none.mpr (fun x hx hpx => hgn (by
          rw [decide_eq_true_eq] at hpx
          exact hpx ▸ List.mem_map_of_mem Prod.fst hx))
      have hnone : byFilename (run embed db docs).db g = none := by
        rw [hdb1, hD.2.2 g]
        by_cases hgd : g ∈ deletedList db docs
        · rw [if_pos hgd]
        · rw [if_neg hgd, hU.2.2.1 g hfind]
          rw [byFilename_eq_none]
          intro hgdb
          refine hgd ?_
          rw [hdelchar]
          refine List.mem_filter.mpr ⟨hgdb, ?_⟩
          simp [hgn]
      rw [byFilename_eq_none] at hnone
      exact hnone hg
    have hwf1 : WFdb (run embed db docs).db := by
      rw [hdb1]
      exact hD.1
    have hclass2 : ∀ d ∈ docs,
        classOf (load_existing_records (run embed db docs).db) d.1 (normalizeContent d.2)
          = Class.unchanged := by
      intro d hd
      obtain ⟨r, hr, hh⟩ := hdoc d.1 d.2 hd
      rw [classOf_eq_unchanged_iff]
      refine ⟨r, ?_, hh⟩
      rw [dictLookup_load _ hwf1]
      exact hr
    have hdel2 : deletedList (run embed db docs).db docs = [] := by
      unfold deletedList
      rw [load_keys _ hwf1]
      apply List.filter_eq_nil_iff.mpr
      intro g hgmem
      simp [hsub g hgmem]
    refine ⟨?_, ?_, ?_, ?_, ?_, ?_⟩
    · rw [run_ne_nil_stats _ _ _ hne, foldl_bumpStats]
      have h1 : docs.countP (fun d => decide (classOf (load_existing_records
          (run embed db docs).db) d.1 (normalizeContent d.2) = Class.new)) = 0 :=
        List.countP_eq_zero.mpr (fun d hd => by rw [hclass2 d hd]; simp)
      have h2 : docs.countP (fun d => decide (classOf (load_existing_records
          (run embed db docs).db) d.1 (normalizeContent d.2) = Class.updated)) = 0 :=
        List.countP_eq_zero.mpr (fun d hd => by rw [hclass2 d hd]; simp)
      have h3 : docs.countP (fun d => decide (classOf (load_existing_records
          (run embed db docs).db) d.1 (normalizeContent d.2) = Class.unchanged))
          = docs.length :=
        List.countP_eq_length.mpr (fun d hd => by rw [hclass2 d hd]; simp)
      rw [h1, h2, h3]
      simp
    · rw [run_ne_nil_deleted_count _ _ _ hne, hdel2]
      rfl
    · rw [run_classes _ _ _ hne]
      exact List.map_congr_left (fun d hd => by rw [hclass2 d hd])
    · rw [run_embedContents _ _ _ hne,
        show docs.filter (fun d => !decide (classOf (load_existing_records
            (run embed db docs).db) d.1 (normalizeContent d.2) = Class.unchanged)) = [] from
          List.filter_eq_nil_iff.mpr (fun d hd => by rw [hclass2 d hd]; simp)]
      rfl
    · rw [run_ne_nil_events _ _ _ hne, hdel2]
      simp only [List.map_nil, List.append_nil]
      apply List.filter_eq_nil_iff.mpr
      intro e he
      obtain ⟨d, hd, hed⟩ := List.mem_flatMap.mp he
      have hde : docEvents embed (load_existing_records (run embed db docs).db) d
          = [Event.classify d.1 Class.unchanged] := by
        simp [docEvents, hclass2 d hd]
      rw [hde, List.mem_singleton] at hed
      rw [hed]
      simp [isMutationEvent]
    · rw [run_ne_nil_db _ _ _ hne, hdel2, List.foldl_nil]
      exact foldl_upsertStep_id embed (load_existing_records (run embed db docs).db) docs
        (run embed db docs).db hclass2

theorem C9_witness :
    ((List.map Prod.fst [("a.md", "hi")]).Nodup)
    ∧ WFdb ([] : Db Nat)
    ∧ KeyInj (List.map Prod.fst [("a.md", "hi")] ++ filenamesOf ([] : Db Nat))
    ∧ ((run (fun _ => (0 : Nat)) (run (fun _ => (0 : Nat)) ([] : Db Nat)
          [("a.md", "hi")]).db [("a.md", "hi")]).stats = ⟨0, 0, [("a.md", "hi")].length⟩
      ∧ (run (fun _ => (0 : Nat)) (run (fun _ => (0 : Nat)) ([] : Db Nat)
          [("a.md", "hi")]).db [("a.md", "hi")]).deleted_count = 0
      ∧ classesOf (run (fun _ => (0 : Nat)) (run (fun _ => (0 : Nat)) ([] : Db Nat)
          [("a.md", "hi")]).db [("a.md", "hi")]).events
          = List.map (fun d => (d.1, Class.unchanged)) [("a.md", "hi")]
      ∧ embedContents (run (fun _ => (0 : Nat)) (run (fun _ => (0 : Nat)) ([] : Db Nat)
          [("a.md", "hi")]).db [("a.md", "hi")]).events = []
      ∧ (run (fun _ => (0 : Nat)) (run (fun _ => (0 : Nat)) ([] : Db Nat)
          [("a.md", "hi")]).db [("a.md", "hi")]).events.filter isMutationEvent = []
      ∧ (run (fun _ => (0 : Nat)) (run (fun _ => (0 : Nat)) ([] : Db Nat)
          [("a.md", "hi")]).db [("a.md", "hi")]).db
          = (run (fun _ => (0 : Nat)) ([] : Db Nat) [("a.md", "hi")]).db) :=
  ⟨by decide,
    ⟨fun p hp => absurd hp (List.not_mem_nil p), List.nodup_nil⟩,
    by
      intro a ha b hb _
      simp [filenamesOf] at ha hb
      rw [ha, hb],
    C9_idempotent (fun _ => (0 : Nat)) ([] : Db Nat) [("a.md", "hi")] (by decide)
      ⟨fun p hp => absurd hp (List.not_mem_nil p), List.nodup_nil⟩
      (by
        intro a ha b hb _
        simp [filenamesOf] at ha hb
        rw [ha, hb])⟩

/-- C10: for a document already stored in truncated form, an edit that leaves
the first `MAX_CONTENT_LENGTH` characters identical and changes only later
characters is classified Unchanged — the run records it as Unchanged, issues
no upsert for it, and the stored record (content included) survives the run
untouched, so the edit is invisible to the sync. -/
theorem C10_beyond_limit_edits_invisible {E : Type} (embed : String → E) (db : Db E)
    (docs : List (String × String)) (f raw1 raw2 : String) (r : Record E)
    (hmem : (f, raw2) ∈ docs) (hnd : (docs.map Prod.fst).Nodup)
    (hwf : WFdb db) (hinj : KeyInj (docs.map Prod.fst ++ filenamesOf db))
    (hlook : dictLookup (load_existing_records db) f = some r)
    (hr : r.hash = compute_hash (strTake raw1 MAX_CONTENT_LENGTH))
    (hlen1 : MAX_CONTENT_LENGTH < raw1.length)
    (hpre : strTake raw2 MAX_CONTENT_LENGTH = strTake raw1 MAX_CONTENT_LENGTH) :
    classOf (load_existing_records db) f (normalizeContent raw2) = Class.unchanged
    ∧ (f, Class.unchanged) ∈ classesOf (run embed db docs).events
    ∧ upsertsFor f (run embed db docs).events = []
    ∧ byFilename (run embed db docs).db f = some r := by
  have hlen2 : MAX_CONTENT_LENGTH ≤ raw2.data.length := by
    have h := congrArg String.length hpre
    rw [show String.length (strTake raw2 MAX_CONTENT_LENGTH)
        = (raw2.data.take MAX_CONTENT_LENGTH).length from rfl,
      show String.length (strTake raw1 MAX_CONTENT_LENGTH)
        = (raw1.data.take MAX_CONTENT_LENGTH).length from rfl,
      List.length_take, List.length_take] at h
    have hl1 : MAX_CONTENT_LENGTH < raw1.data.length := hlen1
    omega
  have hnorm : normalizeContent raw2 = strTake raw1 MAX_CONTENT_LENGTH := by
    unfold normalizeContent
    by_cases hgt : raw2.length > MAX_CONTENT_LENGTH
    · rw [if_pos hgt, hpre]
    · rw [if_neg hgt, ← hpre]
      have hle : raw2.data.length ≤ MAX_CONTENT_LENGTH := not_lt.mp hgt
      show raw2 = String.mk (raw2.data.take MAX_CONTENT_LENGTH)
      rw [List.take_of_length_le hle]
  have hcls : classOf (load_existing_records db) f (normalizeContent raw2)
      = Class.unchanged := by
    rw [classOf_eq_unchanged_iff]
    refine ⟨r, hlook, ?_⟩
    rw [hnorm, hr]
  have hne : docs ≠ [] := List.ne_nil_of_mem hmem
  refine ⟨hcls, ?_, ?_, ?_⟩
  · exact (mem_run_classes_iff embed db docs f raw2 hmem hnd Class.unchanged).mpr hcls
  · rw [run_upsertsFor embed db docs f raw2 hmem hnd, if_pos hcls]
  · have hU := foldl_upsertStep_spec embed (load_existing_records db) docs db hwf hinj hnd
    have hdelchar : deletedList db docs
        = (filenamesOf db).filter (fun g => !((docs.map Prod.fst).contains g)) := by
      unfold deletedList
      rw [load_keys db hwf]
    have hinjD : KeyInj (deletedList db docs
        ++ filenamesOf (docs.foldl (upsertStep embed (load_existing_records db)) db)) :=
      KeyInj_mono hinj (by
        intro x hx
        rcases List.mem_append.mp hx with h1 | h1
        · rw [hdelchar] at h1
          exact List.mem_append.mpr (Or.inr (List.mem_of_mem_filter h1))
        · exact hU.2.1 h1)
    have hD := foldl_delete_spec (deletedList db docs)
      (docs.foldl (upsertStep embed (load_existing_records db)) db) hU.1 hinjD
    have hfs : f ∈ docs.map Prod.fst := List.mem_map_of_mem Prod.fst hmem
    have hnotdel : f ∉ deletedList db docs := by
      rw [hdelchar]
      intro hdel
      have hcf := (List.mem_filter.mp hdel).2
      have hct : (docs.map Prod.fst).contains f = true := by simp [hfs]
      rw [hct] at hcf
      simp at hcf
    rw [run_ne_nil_db embed db docs hne, hD.2.2 f, if_neg hnotdel,
      hU.2.2.2 f (f, raw2) (find?_fst_of_mem f raw2 hmem hnd), if_pos hcls,
      ← dictLookup_load db hwf]
    exact hlook

theorem C10_witness :
    (("a.md", String.mk (List.replicate 10000 'a' ++ ['c']))
        ∈ [("a.md", String.mk (List.replicate 10000 'a' ++ ['c']))])
    ∧ ((List.map Prod.fst [("a.md", String.mk (List.replicate 10000 'a' ++ ['c']))]).Nodup)
    ∧ WFdb [(filename_to_id "a.md",
        (⟨"a.md", strTake (String.mk (List.replicate 10000 'a' ++ ['b'])) MAX_CONTENT_LENGTH,
          (0 : Nat),
          compute_hash (strTake (String.mk (List.replicate 10000 'a' ++ ['b']))
            MAX_CONTENT_LENGTH)⟩ : Record Nat))]
    ∧ KeyInj (List.map Prod.fst [("a.md", String.mk (List.replicate 10000 'a' ++ ['c']))]
        ++ filenamesOf [(filename_to_id "a.md",
          (⟨"a.md", strTake (String.mk (List.replicate 10000 'a' ++ ['b'])) MAX_CONTENT_LENGTH,
            (0 : Nat),
            compute_hash (strTake (String.mk (List.replicate 10000 'a' ++ ['b']))
              MAX_CONTENT_LENGTH)⟩ : Record Nat))])
    ∧ dictLookup (load_existing_records [(filename_to_id "a.md",
        (⟨"a.md", strTake (String.mk (List.replicate 10000 'a' ++ ['b'])) MAX_CONTENT_LENGTH,
          (0 : Nat),
          compute_hash (strTake (String.mk (List.replicate 10000 'a' ++ ['b']))
            MAX_CONTENT_LENGTH)⟩ : Record Nat))]) "a.md"
        = some (⟨"a.md",
            strTake (String.mk (List.replicate 10000 'a' ++ ['b'])) MAX_CONTENT_LENGTH,
            (0 : Nat),
            compute_hash (strTake (String.mk (List.replicate 10000 'a' ++ ['b']))
              MAX_CONTENT_LENGTH)⟩ : Record Nat)
    ∧ (⟨"a.md", strTake (String.mk (List.replicate 10000 'a' ++ ['b'])) MAX_CONTENT_LENGTH,
          (0 : Nat),
          compute_hash (strTake (String.mk (List.replicate 10000 'a' ++ ['b']))
            MAX_CONTENT_LENGTH)⟩ : Record Nat).hash
        = compute_hash (strTake (String.mk (List.replicate 10000 'a' ++ ['b']))
            MAX_CONTENT_LENGTH)
    ∧ MAX_CONTENT_LENGTH < (String.mk (List.replicate 10000 'a' ++ ['b'])).length
    ∧ strTake (String.mk (List.replicate 10000 'a' ++ ['c'])) MAX_CONTENT_LENGTH
        = strTake (String.mk (List.replicate 10000 'a' ++ ['b'])) MAX_CONTENT_LENGTH
    ∧ (classOf (load_existing_records [(filename_to_id "a.md",
          (⟨"a.md", strTake (String.mk (List.replicate 10000 'a' ++ ['b'])) MAX_CONTENT_LENGTH,
            (0 : Nat),
            compute_hash (strTake (String.mk (List.replicate 10000 'a' ++ ['b']))
              MAX_CONTENT_LENGTH)⟩ : Record Nat))]) "a.md"
          (normalizeContent (String.mk (List.replicate 10000 'a' ++ ['c'])))
          = Class.unchanged
      ∧ ("a.md", Class.unchanged) ∈ classesOf (run (fun _ => (0 : Nat))
          [(filename_to_id "a.md",
            (⟨"a.md", strTake (String.mk (List.replicate 10000 'a' ++ ['b']))
                MAX_CONTENT_LENGTH, (0 : Nat),
              compute_hash (strTake (String.mk (List.replicate 10000 'a' ++ ['b']))
                MAX_CONTENT_LENGTH)⟩ : Record Nat))]
          [("a.md", String.mk (List.replicate 10000 'a' ++ ['c']))]).events
      ∧ upsertsFor "a.md" (run (fun _ => (0 : Nat))
          [(filename_to_id "a.md",
            (⟨"a.md", strTake (String.mk (List.replicate 10000 'a' ++ ['b']))
                MAX_CONTENT_LENGTH, (0 : Nat),
              compute_hash (strTake (String.mk (List.replicate 10000 'a' ++ ['b']))
                MAX_CONTENT_LENGTH)⟩ : Record Nat))]
          [("a.md", String.mk (List.replicate 10000 'a' ++ ['c']))]).events = []
      ∧ byFilename (run (fun _ => (0 : Nat))
          [(filename_to_id "a.md",
            (⟨"a.md", strTake (String.mk (List.replicate 10000 'a' ++ ['b']))
                MAX_CONTENT_LENGTH, (0 : Nat),
              compute_hash (strTake (String.mk (List.replicate 10000 'a' ++ ['b']))
                MAX_CONTENT_LENGTH)⟩ : Record Nat))]
          [("a.md", String.mk (List.replicate 10000 'a' ++ ['c']))]).db "a.md"
          = some (⟨"a.md",
              strTake (String.mk (List.replicate 10000 'a' ++ ['b'])) MAX_CONTENT_LENGTH,
              (0 : Nat),
              compute_hash (strTake (String.mk (List.replicate 10000 'a' ++ ['b']))
                MAX_CONTENT_LENGTH)⟩ : Record Nat)) :=
  ⟨List.mem_singleton.mpr rfl,
    by decide,
    ⟨fun p hp => by rw [List.mem_singleton.mp hp], by decide⟩,
    by
      intro a ha b hb _
      have ha2 : a = "a.md" := by
        rcases List.mem_append.mp ha with h | h
        · exact List.mem_singleton.mp h
        · exact List.mem_singleton.mp h
      have hb2 : b = "a.md" := by
        rcases List.mem_append.mp hb with h | h
        · exact List.mem_singleton.mp h
        · exact List.mem_singleton.mp h
      rw [ha2, hb2],
    rfl,
    rfl,
    by
      show MAX_CONTENT_LENGTH < (List.replicate 10000 'a' ++ ['b']).length
      rw [List.length_append, List.length_replicate]
      decide,
    by
      show String.mk ((List.replicate 10000 'a' ++ ['c']).take 10000)
        = String.mk ((List.replicate 10000 'a' ++ ['b']).take 10000)
      have key : ∀ (x : Char) (l : List Char), l.length = 10000 →
          (l ++ [x]).take 10000 = l := by
        intro x l hl
        rw [← hl]
        exact List.take_left _ _
      rw [key 'c' _ (List.length_replicate 10000 'a'),
        key 'b' _ (List.length_replicate 10000 'a')],
    C10_beyond_limit_edits_invisible (fun _ => (0 : Nat))
      [(filename_to_id "a.md",
        (⟨"a.md", strTake (String.mk (List.replicate 10000 'a' ++ ['b'])) MAX_CONTENT_LENGTH,
          (0 : Nat),
          compute_hash (strTake (String.mk (List.replicate 10000 'a' ++ ['b']))
            MAX_CONTENT_LENGTH)⟩ : Record Nat))]
      [("a.md", String.mk (List.replicate 10000 'a' ++ ['c']))]
      "a.md" (String.mk (List.replicate 10000 'a' ++ ['b']))
      (String.mk (List.replicate 10000 'a' ++ ['c']))
      (⟨"a.md", strTake (String.mk (List.replicate 10000 'a' ++ ['b'])) MAX_CONTENT_LENGTH,
        (0 : Nat),
        compute_hash (strTake (String.mk (List.replicate 10000 'a' ++ ['b']))
          MAX_CONTENT_LENGTH)⟩ : Record Nat)
      (List.mem_singleton.mpr rfl)
      (by decide)
      ⟨fun p hp => by rw [List.mem_singleton.mp hp], by decide⟩
      (by
        intro a ha b hb _
        have ha2 : a = "a.md" := by
          rcases List.mem_append.mp ha with h | h
          · exact List.mem_singleton.mp h
          · exact List.mem_singleton.mp h
        have hb2 : b = "a.md" := by
          rcases List.mem_append.mp hb with h | h
          · exact List.mem_singleton.mp h
          · exact List.mem_singleton.mp h
        rw [ha2, hb2])
      rfl
      rfl
      (by
        show MAX_CONTENT_LENGTH < (List.replicate 10000 'a' ++ ['b']).length
        rw [List.length_append, List.length_replicate]
        decide)
      (by
        show String.mk ((List.replicate 10000 'a' ++ ['c']).take 10000)
          = String.mk ((List.replicate 10000 'a' ++ ['b']).take 10000)
        have key : ∀ (x : Char) (l : List Char), l.length = 10000 →
            (l ++ [x]).take 10000 = l := by
          intro x l hl
          rw [← hl]
          exact List.take_left _ _
        rw [key 'c' _ (List.length_replicate 10000 'a'),
          key 'b' _ (List.length_replicate 10000 'a')])⟩

end Vectorizer
